import Mathlib

/-!
Verification of the S3-netCDF-python partition/master-array core.

The definitions below are shallow embeddings of the Python source files
`S3netCDF4/splitnc4.py`, `S3netCDF4/utils/agg.py` and `S3netCDF4/utils/split.py`.
Machine floats (numpy `'f'` arrays and Python floats) are modelled as exact
rationals; Python `int()` truncation toward zero is `pyInt`; Python-2 integer
division is `Nat` floor division; fallible code returns `Except`/`Option`.
-/

/-- Python `int()` applied to a rational: truncation toward zero. -/
def pyInt (q : ℚ) : ℤ :=
  if q < 0 then ⌈q⌉ else ⌊q⌋

/-- `num_vals` from splitnc4.py: number of values in a chunk of the given shape
(`reduce(operator.mul, shape)`, with 1 for an empty shape). -/
def num_vals : List ℕ → ℕ
  | [] => 1
  | x :: xs => xs.foldl (fun a b => a * b) x

/-- `num_vals` applied to a numpy float array (the float subfield shape),
floats modelled as rationals. -/
def num_vals_q : List ℚ → ℚ
  | [] => 1
  | x :: xs => xs.foldl (fun a b => a * b) x

/-- `numpy.argmin` with its value: index of the first occurrence of the
minimum value, paired with that minimum value. -/
def argminIV : List ℕ → ℕ × ℕ
  | [] => (0, 0)
  | [x] => (0, x)
  | x :: y :: ys =>
    let p := argminIV (y :: ys)
    if x ≤ p.2 then (0, x) else (p.1 + 1, p.2)

/-- `numpy.argmin`: index of the first occurrence of the minimum value. -/
def argmin (l : List ℕ) : ℕ := (argminIV l).1

/-- `get_linear_operations` from splitnc4.py: the division count along the
first of the T, Z, N axes that exists, else -1. -/
def get_linear_operations (c_subfield_shape : List ℕ) (axis_types : List String) : ℤ :=
  if "T" ∈ axis_types then (c_subfield_shape.getD (axis_types.indexOf ("T")) 0 : ℤ)
  else if "Z" ∈ axis_types then (c_subfield_shape.getD (axis_types.indexOf ("Z")) 0 : ℤ)
  else if "N" ∈ axis_types then (c_subfield_shape.getD (axis_types.indexOf ("N")) 0 : ℤ)
  else -1

/-- `get_field_operations` from splitnc4.py: product of the division counts of
the X and Y axes (or the one that exists, or -1 if neither exists). -/
def get_field_operations (c_subfield_shape : List ℕ) (axis_types : List String) : ℤ :=
  if "X" ∈ axis_types ∧ "Y" ∈ axis_types then
    (c_subfield_shape.getD (axis_types.indexOf ("X")) 0 *
     c_subfield_shape.getD (axis_types.indexOf ("Y")) 0 : ℤ)
  else if "Y" ∈ axis_types then
    (c_subfield_shape.getD (axis_types.indexOf ("Y")) 0 : ℤ)
  else if "X" ∈ axis_types then
    (c_subfield_shape.getD (axis_types.indexOf ("X")) 0 : ℤ)
  else -1

/-- The masked per-axis division counts built inside `subdivide_field`
(`n_per_subf`): an axis outside the permitted set, or one already divided as
many times as its length, is masked with `int(1e6)`. -/
def n_per_subf (var_shape : List ℕ) (c_subfield_shape : List ℕ)
    (axis_types : List String) (permitted_axes : List String) : List ℕ :=
  (List.range var_shape.length).map (fun i =>
    if axis_types.getD i ("") ∉ permitted_axes then 1000000
    else if var_shape.getD i 0 ≤ c_subfield_shape.getD i 0 then 1000000
    else c_subfield_shape.getD i 0)

/-- `subdivide_field` from splitnc4.py: increment the division count of the
axis with the minimum masked count. -/
def subdivide_field (var_shape : List ℕ) (c_subfield_shape : List ℕ)
    (axis_types : List String) (permitted_axes : List String) : List ℕ :=
  let min_i := argmin (n_per_subf var_shape c_subfield_shape axis_types permitted_axes)
  c_subfield_shape.set min_i (c_subfield_shape.getD min_i 0 + 1)

/-- One iteration of the while-loop body of `calculate_subfield_shape`:
divide on the field axes if field operations do not exceed linear operations,
otherwise on the linear axes. -/
def calc_step (var_shape : List ℕ) (axis_types : List String)
    (c_subfield_divs : List ℕ) : List ℕ :=
  if get_field_operations c_subfield_divs axis_types ≤
      get_linear_operations c_subfield_divs axis_types then
    subdivide_field var_shape c_subfield_divs axis_types ["X", "Y"]
  else
    subdivide_field var_shape c_subfield_divs axis_types ["T", "Z", "N"]

/-- The while-loop of `calculate_subfield_shape`, with explicit fuel;
`none` means the fuel ran out before the loop condition became false. -/
def calc_divs_loop (var_shape : List ℕ) (axis_types : List String)
    (max_field_size : ℕ) : ℕ → List ℕ → Option (List ℕ)
  | 0, divs =>
    if max_field_size < num_vals var_shape / num_vals divs then none else some divs
  | fuel + 1, divs =>
    if max_field_size < num_vals var_shape / num_vals divs then
      calc_divs_loop var_shape axis_types max_field_size fuel
        (calc_step var_shape axis_types divs)
    else some divs

/-- `calculate_subfield_shape` from splitnc4.py: the division counts and the
(float, here rational) per-axis chunk lengths.  Fuel `num_vals var_shape` is
shown sufficient below. -/
def calculate_subfield_shape (var_shape : List ℕ) (axis_types : List String)
    (max_field_size : ℕ) : Option (List ℕ × List ℚ) :=
  (calc_divs_loop var_shape axis_types max_field_size (num_vals var_shape)
      (List.replicate var_shape.length 1)).map
    (fun divs => (divs, (List.range var_shape.length).map
      (fun i => (var_shape.getD i 0 : ℚ) / (divs.getD i 0 : ℚ))))

theorem foldl_mul_eq (xs : List ℕ) : ∀ a, xs.foldl (fun b c => b * c) a = a * xs.prod := by
  induction xs with
  | nil => intro a; simp
  | cons x xs ih => intro a; simp only [List.foldl_cons, ih, List.prod_cons, mul_assoc]

theorem num_vals_eq_prod (l : List ℕ) : num_vals l = l.prod := by
  cases l with
  | nil => rfl
  | cons x xs => simp [num_vals, foldl_mul_eq]

theorem one_le_prod (l : List ℕ) (h : ∀ x ∈ l, 1 ≤ x) : 1 ≤ l.prod := by
  induction l with
  | nil => simp
  | cons x xs ih =>
    rw [List.prod_cons]
    have hx := h x (List.mem_cons_self x xs)
    have hxs := ih (fun y hy => h y (List.mem_cons_of_mem x hy))
    calc 1 = 1 * 1 := by ring
    _ ≤ x * xs.prod := Nat.mul_le_mul hx hxs

theorem prod_set_lt (l : List ℕ) (h1 : ∀ x ∈ l, 1 ≤ x) :
    ∀ i, i < l.length → l.prod < (l.set i (l.getD i 0 + 1)).prod := by
  induction l with
  | nil => intro i hi; simp at hi
  | cons x xs ih =>
    intro i hi
    cases i with
    | zero =>
      simp only [List.set, List.getD, List.get?, List.prod_cons]
      have hxs : 1 ≤ xs.prod := one_le_prod xs (fun y hy => h1 y (List.mem_cons_of_mem x hy))
      have : x * xs.prod < (x + 1) * xs.prod := by
        have : 0 < xs.prod := hxs
        exact Nat.mul_lt_mul_of_lt_of_le (Nat.lt_succ_self x) (le_refl _) this
      simpa using this
    | succ j =>
      simp only [List.set, List.prod_cons, List.getD_cons_succ]
      have hj : j < xs.length := by simpa using hi
      have hx : 1 ≤ x := h1 x (List.mem_cons_self x xs)
      have := ih (fun y hy => h1 y (List.mem_cons_of_mem x hy)) j hj
      exact Nat.mul_lt_mul_of_le_of_lt (le_refl x) this hx

theorem argminIV_lt_length (l : List ℕ) (h : l ≠ []) : (argminIV l).1 < l.length := by
  induction l with
  | nil => exact absurd rfl h
  | cons x xs ih =>
    cases xs with
    | nil => simp [argminIV]
    | cons y ys =>
      simp only [argminIV]
      split
      · simp
      · simpa using Nat.succ_lt_succ (ih (by simp))

theorem argminIV_val (l : List ℕ) (h : l ≠ []) :
    (argminIV l).2 = l.getD (argminIV l).1 0 := by
  induction l with
  | nil => exact absurd rfl h
  | cons x xs ih =>
    cases xs with
    | nil => simp [argminIV]
    | cons y ys =>
      simp only [argminIV]
      split
      · simp
      · simpa using ih (by simp)

theorem argminIV_le_getD (l : List ℕ) :
    ∀ j, j < l.length → (argminIV l).2 ≤ l.getD j 0 := by
  induction l with
  | nil => intro j hj; simp at hj
  | cons x xs ih =>
    intro j hj
    cases xs with
    | nil =>
      cases j with
      | zero => simp [argminIV]
      | succ k => simp at hj
    | cons y ys =>
      simp only [argminIV]
      split
      · rename_i hle
        cases j with
        | zero => simp
        | succ k =>
          have hk : k < (y :: ys).length := by simpa using hj
          simpa using le_trans hle (ih k hk)
      · rename_i hle
        cases j with
        | zero =>
          simpa using le_of_lt (lt_of_not_le hle)
        | succ k =>
          have hk : k < (y :: ys).length := by simpa using hj
          simpa using ih k hk

theorem argminIV_first (l : List ℕ) :
    ∀ j, j < (argminIV l).1 → (argminIV l).2 < l.getD j 0 := by
  induction l with
  | nil => intro j hj; simp [argminIV] at hj
  | cons x xs ih =>
    intro j hj
    cases xs with
    | nil => simp [argminIV] at hj
    | cons y ys =>
      simp only [argminIV] at hj ⊢
      split at hj
      · simp at hj
      · rename_i hle
        rw [if_neg hle]
        cases j with
        | zero =>
          simpa using lt_of_not_le hle
        | succ k =>
          have hk : k < (argminIV (y :: ys)).1 := Nat.lt_of_succ_lt_succ (by simpa using hj)
          simpa using ih k hk

theorem n_per_subf_length (var_shape c : List ℕ) (axes perm : List String) :
    (n_per_subf var_shape c axes perm).length = var_shape.length := by
  simp [n_per_subf]

theorem n_per_subf_getD (var_shape c : List ℕ) (axes perm : List String)
    (i : ℕ) (hi : i < var_shape.length) :
    (n_per_subf var_shape c axes perm).getD i 0 =
      if axes.getD i ("") ∉ perm then 1000000
      else if var_shape.getD i 0 ≤ c.getD i 0 then 1000000
      else c.getD i 0 := by
  have hlen : i < (n_per_subf var_shape c axes perm).length := by
    rw [n_per_subf_length]; exact hi
  rw [List.getD_eq_getElem _ _ hlen]
  simp [n_per_subf, hi]

theorem subdivide_field_length (var_shape c : List ℕ) (axes perm : List String) :
    (subdivide_field var_shape c axes perm).length = c.length := by
  simp [subdivide_field]

theorem subdivide_field_one_le (var_shape c : List ℕ) (axes perm : List String)
    (h1 : ∀ x ∈ c, 1 ≤ x) :
    ∀ x ∈ subdivide_field var_shape c axes perm, 1 ≤ x := by
  intro x hx
  unfold subdivide_field at hx
  rcases List.mem_or_eq_of_mem_set hx with h | h
  · exact h1 x h
  · omega

theorem subdivide_field_prod_lt (var_shape c : List ℕ) (axes perm : List String)
    (hlen : c.length = var_shape.length) (hne : c ≠ [])
    (h1 : ∀ x ∈ c, 1 ≤ x) :
    c.prod < (subdivide_field var_shape c axes perm).prod := by
  unfold subdivide_field
  apply prod_set_lt c h1
  have hlpos : 0 < var_shape.length := by
    rw [← hlen]
    exact List.length_pos.mpr hne
  have hnne : n_per_subf var_shape c axes perm ≠ [] := by
    apply List.ne_nil_of_length_pos
    rw [n_per_subf_length]
    exact hlpos
  have := argminIV_lt_length _ hnne
  rw [n_per_subf_length] at this
  rw [hlen]
  exact this

theorem calc_step_length (var_shape : List ℕ) (axes : List String) (c : List ℕ) :
    (calc_step var_shape axes c).length = c.length := by
  unfold calc_step
  split <;> apply subdivide_field_length

theorem calc_step_one_le (var_shape : List ℕ) (axes : List String) (c : List ℕ)
    (h1 : ∀ x ∈ c, 1 ≤ x) : ∀ x ∈ calc_step var_shape axes c, 1 ≤ x := by
  unfold calc_step
  split <;> exact subdivide_field_one_le _ _ _ _ h1

theorem calc_step_prod_lt (var_shape : List ℕ) (axes : List String) (c : List ℕ)
    (hlen : c.length = var_shape.length) (hne : c ≠ []) (h1 : ∀ x ∈ c, 1 ≤ x) :
    c.prod < (calc_step var_shape axes c).prod := by
  unfold calc_step
  split <;> exact subdivide_field_prod_lt _ _ _ _ hlen hne h1

theorem calc_divs_loop_some (var_shape : List ℕ) (axis_types : List String)
    (max_field_size : ℕ) (hmax : 1 ≤ max_field_size) :
    ∀ fuel divs, divs.length = var_shape.length → (∀ x ∈ divs, 1 ≤ x) →
      num_vals var_shape ≤ fuel + divs.prod →
      ∃ r, calc_divs_loop var_shape axis_types max_field_size fuel divs = some r ∧
        num_vals var_shape / num_vals r ≤ max_field_size := by
  intro fuel
  induction fuel with
  | zero =>
    intro divs hlen h1 hfuel
    by_cases hc : max_field_size < num_vals var_shape / num_vals divs
    · exfalso
      rw [num_vals_eq_prod divs] at hc
      have hP : 0 < divs.prod := one_le_prod divs h1
      have h2 : 2 ≤ num_vals var_shape / divs.prod := by omega
      have := (Nat.le_div_iff_mul_le hP).mp h2
      omega
    · refine ⟨divs, ?_, le_of_not_lt hc⟩
      simp [calc_divs_loop, hc]
  | succ fuel ih =>
    intro divs hlen h1 hfuel
    by_cases hc : max_field_size < num_vals var_shape / num_vals divs
    · have hne : divs ≠ [] := by
        intro hnil
        subst hnil
        simp at hlen
        have hsh : var_shape = [] := List.length_eq_zero.mp hlen.symm
        subst hsh
        simp [num_vals] at hc
        omega
      have hstep := calc_step_prod_lt var_shape axis_types divs hlen hne h1
      obtain ⟨r, hr, hb⟩ := ih (calc_step var_shape axis_types divs)
        (by rw [calc_step_length]; exact hlen)
        (calc_step_one_le _ _ _ h1)
        (by omega)
      refine ⟨r, ?_, hb⟩
      simpa [calc_divs_loop, hc] using hr
    · refine ⟨divs, ?_, le_of_not_lt hc⟩
      simp [calc_divs_loop, hc]

/-- C1: for every variable shape and every maximum fragment-element count
`max_field_size >= 1`, the chunk-shape computation `calculate_subfield_shape`
terminates (the while-loop exits within `num_vals var_shape` iterations, so
the fuelled embedding returns `some`) and the division counts it returns
satisfy `num_vals var_shape / num_vals divs <= max_field_size`. -/
theorem C1_calculate_subfield_shape_terminates_and_bound
    (var_shape : List ℕ) (axis_types : List String) (max_field_size : ℕ)
    (hmax : 1 ≤ max_field_size) :
    ∃ divs fsh,
      calculate_subfield_shape var_shape axis_types max_field_size = some (divs, fsh) ∧
      num_vals var_shape / num_vals divs ≤ max_field_size := by
  obtain ⟨r, hr, hb⟩ := calc_divs_loop_some var_shape axis_types max_field_size hmax
    (num_vals var_shape) (List.replicate var_shape.length 1)
    (by simp)
    (by intro x hx; rw [List.eq_of_mem_replicate hx])
    (by simp)
  refine ⟨r, (List.range var_shape.length).map
    (fun i => (var_shape.getD i 0 : ℚ) / (r.getD i 0 : ℚ)), ?_, hb⟩
  unfold calculate_subfield_shape
  rw [hr]
  rfl

/-- Witness for C1 at the spec's own example: shape `[365, 1, 180, 360]` with
roles T, Z, Y, X and 2048 maximum elements per fragment. -/
theorem C1_witness :
    1 ≤ 2048 ∧
    ∃ divs fsh,
      calculate_subfield_shape [365, 1, 180, 360] ["T", "Z", "Y", "X"] 2048 =
        some (divs, fsh) ∧
      num_vals [365, 1, 180, 360] / num_vals divs ≤ 2048 :=
  ⟨by norm_num,
   C1_calculate_subfield_shape_terminates_and_bound
     [365, 1, 180, 360] ["T", "Z", "Y", "X"] 2048 (by norm_num)⟩

/-- The permitted-axis set chosen by one iteration of the
`calculate_subfield_shape` loop: the field axes X, Y when field operations do
not exceed linear operations, the linear axes T, Z, N otherwise. -/
def step_permitted_axes (c_subfield_divs : List ℕ) (axis_types : List String) :
    List String :=
  if get_field_operations c_subfield_divs axis_types ≤
      get_linear_operations c_subfield_divs axis_types then ["X", "Y"]
  else ["T", "Z", "N"]

/-- An axis eligible for subdivision: it lies in the permitted set for the
current step and has not already been divided as many times as its length. -/
def eligible_axis (var_shape : List ℕ) (axis_types : List String)
    (perm : List String) (divs : List ℕ) (i : ℕ) : Prop :=
  axis_types.getD i ("") ∈ perm ∧ divs.getD i 0 < var_shape.getD i 0

instance (var_shape : List ℕ) (axis_types : List String)
    (perm : List String) (divs : List ℕ) (i : ℕ) :
    Decidable (eligible_axis var_shape axis_types perm divs i) := by
  unfold eligible_axis
  infer_instance

theorem n_per_subf_getD_of_eligible (var_shape divs : List ℕ)
    (axes perm : List String) (i : ℕ) (hi : i < var_shape.length)
    (he : eligible_axis var_shape axes perm divs i) :
    (n_per_subf var_shape divs axes perm).getD i 0 = divs.getD i 0 := by
  rw [n_per_subf_getD _ _ _ _ _ hi]
  obtain ⟨h1, h2⟩ := he
  rw [if_neg (not_not_intro h1), if_neg (Nat.not_le.mpr h2)]

/-- C5: each iteration of the chunk-shape loop subdivides using the permitted
set {X, Y} when `field_ops <= linear_ops` and {T, Z, N} otherwise, and the
incremented axis is the first index of minimum masked count, where an axis
outside the permitted set or already divided as many times as its length is
masked with the effectively-infinite count `int(1e6) = 1000000`; whenever some
eligible axis has a count below the mask, the selected axis is eligible, has
the smallest division count among all eligible axes, and every eligible axis
of lower position has a strictly larger count (ties broken by lowest
position). -/
theorem C5_calc_step_selects_min_eligible_axis
    (var_shape divs : List ℕ) (axis_types : List String)
    (max_field_size fuel : ℕ)
    (hcond : max_field_size < num_vals var_shape / num_vals divs) :
    calc_divs_loop var_shape axis_types max_field_size (fuel + 1) divs =
      calc_divs_loop var_shape axis_types max_field_size fuel
        (calc_step var_shape axis_types divs) ∧
    calc_step var_shape axis_types divs =
      subdivide_field var_shape divs axis_types
        (step_permitted_axes divs axis_types) ∧
    (∀ perm, perm = step_permitted_axes divs axis_types →
      ∀ i₀, i₀ < var_shape.length →
        eligible_axis var_shape axis_types perm divs i₀ →
        divs.getD i₀ 0 < 1000000 →
        ∀ m, m = argmin (n_per_subf var_shape divs axis_types perm) →
         calc_step var_shape axis_types divs = divs.set m (divs.getD m 0 + 1) ∧
         m < var_shape.length ∧
         eligible_axis var_shape axis_types perm divs m ∧
         (∀ i, i < var_shape.length →
            eligible_axis var_shape axis_types perm divs i →
            divs.getD m 0 ≤ divs.getD i 0) ∧
         (∀ j, j < m → eligible_axis var_shape axis_types perm divs j →
            divs.getD m 0 < divs.getD j 0)) := by
  refine ⟨by simp [calc_divs_loop, hcond], ?_, ?_⟩
  · unfold calc_step step_permitted_axes
    split <;> rfl
  · intro perm hperm i₀ hi₀ helig hsmall m hm
    have hstep : calc_step var_shape axis_types divs =
        subdivide_field var_shape divs axis_types perm := by
      rw [hperm]
      unfold calc_step step_permitted_axes
      split <;> rfl
    set npsf := n_per_subf var_shape divs axis_types perm with hnpsf
    have hm1 : m = (argminIV npsf).1 := hm
    have hne : npsf ≠ [] := by
      apply List.ne_nil_of_length_pos
      rw [hnpsf, n_per_subf_length]
      omega
    have hmlen : m < var_shape.length := by
      rw [hm1]
      have := argminIV_lt_length npsf hne
      rw [hnpsf, n_per_subf_length] at this
      exact this
    have hval : (argminIV npsf).2 = npsf.getD m 0 := by
      rw [hm1]
      exact argminIV_val npsf hne
    have hi₀v : npsf.getD i₀ 0 = divs.getD i₀ 0 :=
      n_per_subf_getD_of_eligible _ _ _ _ _ hi₀ helig
    have hi₀lt : i₀ < npsf.length := by rw [hnpsf, n_per_subf_length]; exact hi₀
    have hminle : (argminIV npsf).2 ≤ divs.getD i₀ 0 := by
      rw [← hi₀v]
      exact argminIV_le_getD npsf i₀ hi₀lt
    have heligm : eligible_axis var_shape axis_types perm divs m := by
      by_contra hnot
      unfold eligible_axis at hnot
      push_neg at hnot
      have hbig : npsf.getD m 0 = 1000000 := by
        rw [hnpsf, n_per_subf_getD _ _ _ _ _ hmlen]
        by_cases hin : axis_types.getD m ("") ∈ perm
        · have hge : var_shape.getD m 0 ≤ divs.getD m 0 := hnot hin
          rw [if_neg (not_not_intro hin), if_pos hge]
        · rw [if_pos hin]
      rw [hval, hbig] at hminle
      omega
    have hmv : npsf.getD m 0 = divs.getD m 0 :=
      n_per_subf_getD_of_eligible _ _ _ _ _ hmlen heligm
    have heq : calc_step var_shape axis_types divs =
        divs.set m (divs.getD m 0 + 1) := by
      rw [hstep, hm]
      rfl
    refine ⟨heq, hmlen, heligm, ?_, ?_⟩
    · intro i hi helig_i
      have hiv : npsf.getD i 0 = divs.getD i 0 :=
        n_per_subf_getD_of_eligible _ _ _ _ _ hi helig_i
      have hilt : i < npsf.length := by rw [hnpsf, n_per_subf_length]; exact hi
      have := argminIV_le_getD npsf i hilt
      rw [hval, hmv, hiv] at this
      exact this
    · intro j hj helig_j
      have hjlen : j < var_shape.length := lt_trans hj hmlen
      have hjv : npsf.getD j 0 = divs.getD j 0 :=
        n_per_subf_getD_of_eligible _ _ _ _ _ hjlen helig_j
      rw [hm1] at hj
      have := argminIV_first npsf j hj
      rw [hval, hmv, hjv] at this
      exact this

/-- Witness for C5 at a concrete state: shape `[4, 4, 4]` with roles T, Y, X,
all division counts 1, maximum fragment size 1. -/
theorem C5_witness :
    1 < num_vals [4, 4, 4] / num_vals [1, 1, 1] ∧
    (calc_divs_loop [4, 4, 4] ["T", "Y", "X"] 1 (0 + 1) [1, 1, 1] =
      calc_divs_loop [4, 4, 4] ["T", "Y", "X"] 1 0
        (calc_step [4, 4, 4] ["T", "Y", "X"] [1, 1, 1]) ∧
    calc_step [4, 4, 4] ["T", "Y", "X"] [1, 1, 1] =
      subdivide_field [4, 4, 4] [1, 1, 1] ["T", "Y", "X"]
        (step_permitted_axes [1, 1, 1] ["T", "Y", "X"]) ∧
    (∀ perm, perm = step_permitted_axes [1, 1, 1] ["T", "Y", "X"] →
      ∀ i₀, i₀ < ([4, 4, 4] : List ℕ).length →
        eligible_axis [4, 4, 4] ["T", "Y", "X"] perm [1, 1, 1] i₀ →
        ([1, 1, 1] : List ℕ).getD i₀ 0 < 1000000 →
        ∀ m, m = argmin (n_per_subf [4, 4, 4] [1, 1, 1] ["T", "Y", "X"] perm) →
         calc_step [4, 4, 4] ["T", "Y", "X"] [1, 1, 1] =
           ([1, 1, 1] : List ℕ).set m (([1, 1, 1] : List ℕ).getD m 0 + 1) ∧
         m < ([4, 4, 4] : List ℕ).length ∧
         eligible_axis [4, 4, 4] ["T", "Y", "X"] perm [1, 1, 1] m ∧
         (∀ i, i < ([4, 4, 4] : List ℕ).length →
            eligible_axis [4, 4, 4] ["T", "Y", "X"] perm [1, 1, 1] i →
            ([1, 1, 1] : List ℕ).getD m 0 ≤ ([1, 1, 1] : List ℕ).getD i 0) ∧
         (∀ j, j < m → eligible_axis [4, 4, 4] ["T", "Y", "X"] perm [1, 1, 1] j →
            ([1, 1, 1] : List ℕ).getD m 0 < ([1, 1, 1] : List ℕ).getD j 0))) :=
  ⟨by decide,
   C5_calc_step_selects_min_eligible_axis [4, 4, 4] [1, 1, 1] ["T", "Y", "X"] 1 0
     (by decide)⟩

/-- Outcome of the opening phase of `split_into_CFA`: the selected output
format, and whether the output dataset has been created. -/
structure SplitOpen where
  s3_file_format : String
  output_dataset_created : Bool
deriving DecidableEq, Repr

/-- The container-format check at the start of `split_into_CFA`
(utils/split.py): NETCDF4 and NETCDF4_CLASSIC inputs select output format
CFA4, NETCDF3_CLASSIC selects CFA3, and any other format raises a CFAError
before the output s3Dataset is created (creation is reached only on the ok
path). -/
def split_into_CFA_open (input_file_format : String) : Except String SplitOpen :=
  if input_file_format = "NETCDF4" ∨ input_file_format = "NETCDF4_CLASSIC" then
    Except.ok { s3_file_format := "CFA4", output_dataset_created := true }
  else if input_file_format = "NETCDF3_CLASSIC" then
    Except.ok { s3_file_format := "CFA3", output_dataset_created := true }
  else
    Except.error ("CFAError: Cannot split file with format: " ++ input_file_format)

/-- C10: `split_into_CFA` raises a CFAError for every input container format
other than NETCDF4, NETCDF4_CLASSIC and NETCDF3_CLASSIC, before creating any
output dataset (no ok outcome exists); NETCDF4 and NETCDF4_CLASSIC inputs
yield output format CFA4 and NETCDF3_CLASSIC yields CFA3. -/
theorem C10_split_into_CFA_format_check (fmt : String) :
    (fmt = "NETCDF4" ∨ fmt = "NETCDF4_CLASSIC" →
      split_into_CFA_open fmt =
        Except.ok { s3_file_format := "CFA4", output_dataset_created := true }) ∧
    (fmt = "NETCDF3_CLASSIC" →
      split_into_CFA_open fmt =
        Except.ok { s3_file_format := "CFA3", output_dataset_created := true }) ∧
    (fmt ≠ "NETCDF4" → fmt ≠ "NETCDF4_CLASSIC" → fmt ≠ "NETCDF3_CLASSIC" →
      split_into_CFA_open fmt =
        Except.error ("CFAError: Cannot split file with format: " ++ fmt) ∧
      ∀ r, split_into_CFA_open fmt ≠ Except.ok r) := by
  refine ⟨?_, ?_, ?_⟩
  · intro h
    unfold split_into_CFA_open
    rw [if_pos h]
  · intro h
    subst h
    rfl
  · intro h1 h2 h3
    have herr : split_into_CFA_open fmt =
        Except.error ("CFAError: Cannot split file with format: " ++ fmt) := by
      unfold split_into_CFA_open
      rw [if_neg (by tauto), if_neg h3]
    refine ⟨herr, ?_⟩
    intro r hr
    rw [herr] at hr
    exact Except.noConfusion hr

/-- Witness for C10 at the three concrete accepted formats and one rejected
format (NETCDF3_64BIT_OFFSET). -/
theorem C10_witness :
    split_into_CFA_open "NETCDF4" =
      Except.ok { s3_file_format := "CFA4", output_dataset_created := true } ∧
    split_into_CFA_open "NETCDF3_CLASSIC" =
      Except.ok { s3_file_format := "CFA3", output_dataset_created := true } ∧
    split_into_CFA_open "NETCDF3_64BIT_OFFSET" =
      Except.error ("CFAError: Cannot split file with format: " ++
        "NETCDF3_64BIT_OFFSET") :=
  ⟨(C10_split_into_CFA_format_check ("NETCDF4")).1 (Or.inl rfl),
   (C10_split_into_CFA_format_check ("NETCDF3_CLASSIC")).2.1 rfl,
   ((C10_split_into_CFA_format_check ("NETCDF3_64BIT_OFFSET")).2.2
     (by decide) (by decide) (by decide)).1⟩

/-- The three positioning modes of `seek`: io.SEEK_SET, io.SEEK_CUR,
io.SEEK_END. -/
inductive SeekWhence
  | seek_set
  | seek_cur
  | seek_end
deriving DecidableEq, Repr

/-- A read-mode object-store stream: the fixed object size and the current
stream position. -/
structure S3ReadStream where
  size : ℤ
  seek_pos : ℤ
deriving DecidableEq, Repr

/-- The resulting position a seek asks for: absolute for SEEK_SET, relative
to the current position for SEEK_CUR, and measured back from the end of the
object for SEEK_END (test_s3FileObject.test_seek fixes the orientation:
`seek(10, SEEK_END)` returns `size - 10`). -/
def seek_target (st : S3ReadStream) (offset : ℤ) (whence : SeekWhence) : ℤ :=
  match whence with
  | SeekWhence.seek_set => offset
  | SeekWhence.seek_cur => st.seek_pos + offset
  | SeekWhence.seek_end => st.size - offset

/-- Modelled from the spec: `s3FileObject.seek` in read mode
(`S3netCDF4/Backends/_s3FileObject.py` is not part of the source tree; only
its unit tests are).  Spec section 4.5: seek supports absolute, relative and
from-end positioning and fails with an out-of-range error for any resulting
position `< 0` or `> size`; on failure the position is unchanged, on success
the new position is stored and returned. -/
def s3FileObject_seek (st : S3ReadStream) (offset : ℤ) (whence : SeekWhence) :
    S3ReadStream × Except String ℤ :=
  let new_pos := seek_target st offset whence
  if new_pos < 0 ∨ st.size < new_pos then
    (st, Except.error ("IOException: seek out of range"))
  else
    ({ st with seek_pos := new_pos }, Except.ok new_pos)

/-- C8: on a read-mode stream over an object of size S with a valid current
position, any seek whose resulting position is below 0 or above S fails with
the out-of-range error and leaves the stream unchanged, and any seek whose
resulting position lies within [0, S] succeeds, stores the new position and
returns it. -/
theorem C8_seek_bounds (st : S3ReadStream) (offset : ℤ) (whence : SeekWhence)
    (hpos0 : 0 ≤ st.seek_pos) (hpos1 : st.seek_pos ≤ st.size) :
    (seek_target st offset whence < 0 ∨ st.size < seek_target st offset whence →
      s3FileObject_seek st offset whence =
        (st, Except.error ("IOException: seek out of range"))) ∧
    (0 ≤ seek_target st offset whence → seek_target st offset whence ≤ st.size →
      s3FileObject_seek st offset whence =
        ({ st with seek_pos := seek_target st offset whence },
         Except.ok (seek_target st offset whence))) := by
  constructor
  · intro h
    unfold s3FileObject_seek
    rw [if_pos h]
  · intro h0 h1
    unfold s3FileObject_seek
    rw [if_neg (by omega)]

/-- Witness for C8 on an object of size 100 with the stream at position 0:
the boundary failures and successes of test_s3FileObject.test_seek. -/
theorem C8_witness :
    (0 : ℤ) ≤ 0 ∧ (0 : ℤ) ≤ 100 ∧
    s3FileObject_seek { size := 100, seek_pos := 0 } (-1) SeekWhence.seek_set =
      ({ size := 100, seek_pos := 0 }, Except.error ("IOException: seek out of range")) ∧
    s3FileObject_seek { size := 100, seek_pos := 0 } 101 SeekWhence.seek_cur =
      ({ size := 100, seek_pos := 0 }, Except.error ("IOException: seek out of range")) ∧
    s3FileObject_seek { size := 100, seek_pos := 0 } (-1) SeekWhence.seek_end =
      ({ size := 100, seek_pos := 0 }, Except.error ("IOException: seek out of range")) ∧
    s3FileObject_seek { size := 100, seek_pos := 0 } 10 SeekWhence.seek_end =
      ({ size := 100, seek_pos := 90 }, Except.ok 90) :=
  ⟨by norm_num, by norm_num,
   (C8_seek_bounds { size := 100, seek_pos := 0 } (-1) SeekWhence.seek_set
     (by norm_num) (by norm_num)).1 (by norm_num [seek_target]),
   (C8_seek_bounds { size := 100, seek_pos := 0 } 101 SeekWhence.seek_cur
     (by norm_num) (by norm_num)).1 (by norm_num [seek_target]),
   (C8_seek_bounds { size := 100, seek_pos := 0 } (-1) SeekWhence.seek_end
     (by norm_num) (by norm_num)).1 (by norm_num [seek_target]),
   (C8_seek_bounds { size := 100, seek_pos := 0 } 10 SeekWhence.seek_end
     (by norm_num) (by norm_num)).2 (by norm_num [seek_target]) (by norm_num [seek_target])⟩

/-- The per-variable location computation of `add_var_dims` (utils/agg.py)
for a fragmented variable, specialised to the location matrix it fills in.
`axis_in_dims` tells whether the aggregation axis is among the variable's
dimensions.  The axis coordinate values are bound (`axis_dim_values`) only
when the axis variable's name is exactly `time` or starts with `t`; for any
other name the subsequent resolution computation reads an unbound variable
and the operation fails (UnboundLocalError).  An empty axis raises IndexError
when reading the first value; the resolution `(last - first)/count` equal to
0 (single value, or equal endpoints) makes `int(first/0)` fail (numpy yields
inf or nan, which `int()` rejects).  Otherwise the aggregation-axis location
is `[int(first/res), int(first/res) + count)` and every other dimension gets
the full extent `[0, shape[d])`. -/
def agg_axis_res (axis_values : List ℚ) : ℚ :=
  (axis_values.getLastD 0 - axis_values.headD 0) / (axis_values.length : ℚ)

/-- `int(axis_dim_values[0] / axis_res)`: the start of the aggregation-axis
location in `add_var_dims`. -/
def agg_axis_start (axis_values : List ℚ) : ℤ :=
  pyInt (axis_values.headD 0 / agg_axis_res axis_values)

def add_var_dims_location (axis_name : String) (axis_values : List ℚ)
    (var_shape : List ℕ) (axis_dim_n : ℕ) (axis_in_dims : Bool) :
    Except String (List (ℤ × ℤ)) :=
  if axis_in_dims then
    if ¬(axis_name = "time" ∨ axis_name.take 1 = "t") then
      Except.error ("UnboundLocalError: axis_dim_values referenced before assignment")
    else if axis_values = [] then
      Except.error ("IndexError: index 0 is out of bounds")
    else if agg_axis_res axis_values = 0 then
      Except.error ("OverflowError: cannot convert float infinity to integer")
    else
      Except.ok ((List.range var_shape.length).map (fun d =>
        if d = axis_dim_n then
          (agg_axis_start axis_values,
           agg_axis_start axis_values + (axis_values.length : ℤ))
        else (0, (var_shape.getD d 0 : ℤ))))
  else
    Except.ok ((List.range var_shape.length).map (fun d =>
      (0, (var_shape.getD d 0 : ℤ))))

/-- C9: in the aggregator's `add_var_dims`, for a fragmented variable whose
dimensions include the aggregation axis, the axis coordinate values are bound
only when the axis variable's name is exactly `time` or begins with `t`; for
every other axis name the resolution computation reads an undefined variable
and the operation raises an error instead of producing a partition location. -/
theorem C9_agg_axis_values_bound_only_for_t_names
    (axis_name : String) (axis_values : List ℚ) (var_shape : List ℕ)
    (axis_dim_n : ℕ) :
    (¬(axis_name = "time" ∨ axis_name.take 1 = "t") →
      add_var_dims_location axis_name axis_values var_shape axis_dim_n true =
        Except.error
          ("UnboundLocalError: axis_dim_values referenced before assignment")) ∧
    ((axis_name = "time" ∨ axis_name.take 1 = "t") →
      add_var_dims_location axis_name axis_values var_shape axis_dim_n true ≠
        Except.error
          ("UnboundLocalError: axis_dim_values referenced before assignment")) := by
  constructor
  · intro h
    unfold add_var_dims_location
    rw [if_pos rfl, if_pos h]
  · intro h
    unfold add_var_dims_location
    rw [if_pos rfl, if_neg (not_not_intro h)]
    by_cases hnil : axis_values = []
    · rw [if_pos hnil]
      intro hcontra
      exact absurd (Except.error.inj hcontra) (by decide)
    · rw [if_neg hnil]
      by_cases hres : agg_axis_res axis_values = 0
      · rw [if_pos hres]
        intro hcontra
        exact absurd (Except.error.inj hcontra) (by decide)
      · rw [if_neg hres]
        intro hcontra
        exact Except.noConfusion hcontra

/-- Witness for C9: an axis named `lat` errors, an axis named `time` with
values 0, 1 does not raise the unbound-variable error. -/
theorem C9_witness :
    ¬(("lat" : String) = "time" ∨ ("lat" : String).take 1 = "t") ∧
    (("time" : String) = "time" ∨ ("time" : String).take 1 = "t") ∧
    add_var_dims_location "lat" [0, 1] [5] 0 true =
      Except.error
        ("UnboundLocalError: axis_dim_values referenced before assignment") ∧
    add_var_dims_location "time" [0, 1] [5] 0 true ≠
      Except.error
        ("UnboundLocalError: axis_dim_values referenced before assignment") :=
  ⟨by decide, by decide,
   (C9_agg_axis_values_bound_only_for_t_names ("lat") [0, 1] [5] 0).1 (by decide),
   (C9_agg_axis_values_bound_only_for_t_names ("time") [0, 1] [5] 0).2 (by decide)⟩

/-- The location computation as claim C4 states it (this definition follows
the claim's words, for comparison with the source embedding
`add_var_dims_location`): resolution `(last - first)/count`, except resolution
1 when the axis has a single value; location `[int(first/res),
int(first/res)+count)` on the axis and full extent elsewhere. -/
def C4_claimed_res (axis_values : List ℚ) : ℚ :=
  if axis_values.length = 1 then 1
  else (axis_values.getLastD 0 - axis_values.headD 0) / (axis_values.length : ℚ)

def C4_claimed_location (axis_values : List ℚ) (var_shape : List ℕ)
    (axis_dim_n : ℕ) : Option (List (ℤ × ℤ)) :=
  if axis_values = [] then none
  else
    some ((List.range var_shape.length).map (fun d =>
      if d = axis_dim_n then
        (pyInt (axis_values.headD 0 / C4_claimed_res axis_values),
         pyInt (axis_values.headD 0 / C4_claimed_res axis_values) +
           (axis_values.length : ℤ))
      else (0, (var_shape.getD d 0 : ℤ))))

/-- C4 counterexample: a single-valued time axis (one value 5, variable of
length 1).  The claim prescribes resolution 1 and location [5, 6); the code
computes resolution (5-5)/1 = 0 and then fails on `int(first/0)` instead. -/
theorem C4_counterexample :
    add_var_dims_location "time" [5] [1] 0 true =
      Except.error ("OverflowError: cannot convert float infinity to integer") ∧
    C4_claimed_location [5] [1] 0 = some [(5, 6)] ∧
    add_var_dims_location "time" [5] [1] 0 true ≠
      Except.ok [(5, 6)] := by
  have hcode : add_var_dims_location "time" [5] [1] 0 true =
      Except.error ("OverflowError: cannot convert float infinity to integer") := by
    unfold add_var_dims_location
    rw [if_pos rfl, if_neg (by decide), if_neg (by decide),
      if_pos (by norm_num [agg_axis_res])]
  refine ⟨hcode, ?_, ?_⟩
  · unfold C4_claimed_location
    rw [if_neg (by decide)]
    norm_num [C4_claimed_res, pyInt, List.range_succ]
  · rw [hcode]
    intro h
    exact Except.noConfusion h

/-- C4 amended: for a time-named aggregation axis present in the variable,
with a non-empty coordinate list whose last value differs from its first, the
partition location along the axis is `[int(first/res), int(first/res)+count)`
with inferred resolution `res = (last - first)/count`, and every other
dimension gets the full extent `[0, dimLength)`; but when the axis has a
single value the inferred resolution is 0 (not 1 as the claim says) and the
location computation fails with an error instead of producing a partition. -/
theorem C4_agg_location_amended (axis_name : String) (axis_values : List ℚ)
    (var_shape : List ℕ) (axis_dim_n : ℕ)
    (hname : axis_name = "time" ∨ axis_name.take 1 = "t")
    (hne : axis_values ≠ []) :
    (axis_values.getLastD 0 ≠ axis_values.headD 0 →
      add_var_dims_location axis_name axis_values var_shape axis_dim_n true =
        Except.ok ((List.range var_shape.length).map (fun d =>
          if d = axis_dim_n then
            (agg_axis_start axis_values,
             agg_axis_start axis_values + (axis_values.length : ℤ))
          else (0, (var_shape.getD d 0 : ℤ)))) ∧
      agg_axis_res axis_values =
        (axis_values.getLastD 0 - axis_values.headD 0) / (axis_values.length : ℚ)) ∧
    (axis_values.length = 1 →
      add_var_dims_location axis_name axis_values var_shape axis_dim_n true =
        Except.error ("OverflowError: cannot convert float infinity to integer")) := by
  constructor
  · intro hlf
    have hlen : (axis_values.length : ℚ) ≠ 0 := by
      have : axis_values.length ≠ 0 := fun h => hne (List.length_eq_zero.mp h)
      exact_mod_cast Nat.cast_ne_zero.mpr this
    have hres : agg_axis_res axis_values ≠ 0 := by
      unfold agg_axis_res
      exact div_ne_zero (sub_ne_zero.mpr hlf) hlen
    constructor
    · unfold add_var_dims_location
      rw [if_pos rfl, if_neg (not_not_intro hname), if_neg hne, if_neg hres]
    · rfl
  · intro hlen1
    obtain ⟨v, hv⟩ := List.length_eq_one.mp hlen1
    subst hv
    have hres : agg_axis_res [v] = 0 := by
      unfold agg_axis_res
      simp
    unfold add_var_dims_location
    rw [if_pos rfl, if_neg (not_not_intro hname), if_neg (by simp), if_pos hres]

/-- Witness for C4's amended statement: a two-valued time axis 0, 2 on a
variable of shape [2, 7] (location [0, 2) on the axis, [0, 7) elsewhere), and
the single-valued failure at value 5. -/
theorem C4_witness :
    add_var_dims_location "time" [0, 2] [2, 7] 0 true =
      Except.ok [((0 : ℤ), (2 : ℤ)), ((0 : ℤ), (7 : ℤ))] ∧
    add_var_dims_location "time" [5] [1] 0 true =
      Except.error ("OverflowError: cannot convert float infinity to integer") := by
  constructor
  · have h := ((C4_agg_location_amended ("time") [0, 2] [2, 7] 0 (by decide)
      (by decide)).1 (by norm_num)).1
    rw [h]
    norm_num [agg_axis_start, agg_axis_res, pyInt, List.range_succ,
      List.getD_cons_succ, List.getD_cons_zero]
  · exact (C4_agg_location_amended ("time") [5] [1] 0 (by decide) (by decide)).2 rfl

/-- One partition of the 1-D partition matrix the aggregator builds along the
aggregation axis (utils/agg.py): its index component along the axis, its
location `[start, end)` along the axis, and its subarray extent along the
axis. -/
structure AggPartition where
  index : ℕ
  location : ℤ × ℤ
  shape : ℕ
deriving DecidableEq, Repr

instance : Inhabited AggPartition where
  default := { index := 0, location := (0, 0), shape := 0 }

/-- Comparison of partitions by the start of their location, the key of
`np.argsort(locs[:, axis_dim_n, 0])`. -/
def agg_part_le (a b : AggPartition) : Prop := a.location.1 ≤ b.location.1

instance : DecidableRel agg_part_le := fun a b => by
  unfold agg_part_le
  infer_instance

instance : IsTotal AggPartition agg_part_le :=
  ⟨fun a b => le_total a.location.1 b.location.1⟩

instance : IsTrans AggPartition agg_part_le :=
  ⟨fun _ _ _ h1 h2 => le_trans h1 h2⟩

/-- The sorted order of `sort_partition_matrix`: partitions in ascending
order of location start (a stable sort; `np.argsort` agrees with it whenever
the start values are distinct). -/
def sort_by_location_start (parts : List AggPartition) : List AggPartition :=
  List.insertionSort agg_part_le parts

/-- The reindexing pass of `sort_partition_matrix`: the partition placed at
position `i` of the sorted order gets index component `i`. -/
def reindex_from : ℕ → List AggPartition → List AggPartition
  | _, [] => []
  | i, p :: rest => { p with index := i } :: reindex_from (i + 1) rest

/-- The integrity pass of `sort_partition_matrix` for every partition after
the first: the start is forced to the previous partition's (already
rewritten) end, and the end to start plus the partition's own extent. -/
def stitch_partitions : ℤ → List AggPartition → List AggPartition
  | _, [] => []
  | prev_end, p :: rest =>
    stitch_partitions (prev_end + (p.shape : ℤ)) rest |>.cons
      { p with location := (prev_end, prev_end + (p.shape : ℤ)) }

/-- `sort_partition_matrix` from utils/agg.py: sort the partitions by
location start, reassign the index components to the sorted positions, then
rewrite the locations: the first partition keeps its start and gets end =
start + shape; every later partition starts at the previous partition's new
end and ends at start + shape. -/
def sort_partition_matrix (parts : List AggPartition) : List AggPartition :=
  match reindex_from 0 (sort_by_location_start parts) with
  | [] => []
  | p0 :: rest =>
    stitch_partitions (p0.location.1 + (p0.shape : ℤ)) rest |>.cons
      { p0 with location := (p0.location.1, p0.location.1 + (p0.shape : ℤ)) }

theorem stitch_partitions_length (l : List AggPartition) :
    ∀ e, (stitch_partitions e l).length = l.length := by
  induction l with
  | nil => intro e; rfl
  | cons p rest ih =>
    intro e
    simp [stitch_partitions, ih]

theorem stitch_partitions_getD (l : List AggPartition) :
    ∀ e k, k < l.length →
      (stitch_partitions e l).getD k default =
        { l.getD k default with
          location := (e + ((l.take k).map (fun p => (p.shape : ℤ))).sum,
                       e + ((l.take (k + 1)).map (fun p => (p.shape : ℤ))).sum) } := by
  induction l with
  | nil => intro e k hk; simp at hk
  | cons p rest ih =>
    intro e k hk
    cases k with
    | zero =>
      simp [stitch_partitions]
    | succ k =>
      have hk' : k < rest.length := by simpa using hk
      simp only [stitch_partitions, List.cons, List.getD_cons_succ]
      rw [ih (e + (p.shape : ℤ)) k hk']
      simp [List.take_succ_cons, add_assoc]

theorem reindex_from_length (l : List AggPartition) :
    ∀ i, (reindex_from i l).length = l.length := by
  induction l with
  | nil => intro i; rfl
  | cons p rest ih => intro i; simp [reindex_from, ih]

theorem reindex_from_getD (l : List AggPartition) :
    ∀ i k, k < l.length →
      (reindex_from i l).getD k default = { l.getD k default with index := i + k } := by
  induction l with
  | nil => intro i k hk; simp at hk
  | cons p rest ih =>
    intro i k hk
    cases k with
    | zero => simp [reindex_from]
    | succ k =>
      have hk' : k < rest.length := by simpa using hk
      simp only [reindex_from, List.getD_cons_succ]
      rw [ih (i + 1) k hk']
      have : i + 1 + k = i + (k + 1) := by omega
      rw [this]

theorem reindex_from_take_map_shape (l : List AggPartition) :
    ∀ i k, ((reindex_from i l).take k).map (fun p => (p.shape : ℤ)) =
      (l.take k).map (fun p => (p.shape : ℤ)) := by
  induction l with
  | nil => intro i k; rfl
  | cons p rest ih =>
    intro i k
    cases k with
    | zero => rfl
    | succ k =>
      simp only [reindex_from, List.take_succ_cons, List.map_cons]
      rw [ih (i + 1) k]

theorem sort_partition_matrix_length (parts : List AggPartition) :
    (sort_partition_matrix parts).length = parts.length := by
  have hperm := List.perm_insertionSort agg_part_le parts
  have hslen : (reindex_from 0 (sort_by_location_start parts)).length = parts.length := by
    rw [reindex_from_length, sort_by_location_start, hperm.length_eq]
  unfold sort_partition_matrix
  cases hS : reindex_from 0 (sort_by_location_start parts) with
  | nil =>
    rw [hS] at hslen
    have h0 : parts.length = 0 := by simpa using hslen.symm
    show ([] : List AggPartition).length = parts.length
    simp [h0]
  | cons p0 rest =>
    rw [hS] at hslen
    show (stitch_partitions (p0.location.1 + (p0.shape : ℤ)) rest |>.cons
      { p0 with location := (p0.location.1, p0.location.1 + (p0.shape : ℤ)) }).length =
        parts.length
    simp only [List.cons, List.length_cons, stitch_partitions_length]
    simpa using hslen

theorem sort_partition_matrix_getD (parts : List AggPartition)
    (hne : parts ≠ []) :
    ∀ k, k < parts.length →
      (sort_partition_matrix parts).getD k default =
        { (reindex_from 0 (sort_by_location_start parts)).getD k default with
          location :=
            (((reindex_from 0 (sort_by_location_start parts)).getD 0
                default).location.1 +
              (((reindex_from 0 (sort_by_location_start parts)).take k).map
                (fun p => (p.shape : ℤ))).sum,
             ((reindex_from 0 (sort_by_location_start parts)).getD 0
                default).location.1 +
              (((reindex_from 0 (sort_by_location_start parts)).take (k + 1)).map
                (fun p => (p.shape : ℤ))).sum) } := by
  intro k hk
  have hperm := List.perm_insertionSort agg_part_le parts
  have hslen : (reindex_from 0 (sort_by_location_start parts)).length = parts.length := by
    rw [reindex_from_length, sort_by_location_start, hperm.length_eq]
  unfold sort_partition_matrix
  cases hS : reindex_from 0 (sort_by_location_start parts) with
  | nil =>
    rw [hS] at hslen
    exact absurd (List.length_eq_zero.mp hslen.symm) hne
  | cons p0 rest =>
    rw [hS] at hslen
    show (stitch_partitions (p0.location.1 + (p0.shape : ℤ)) rest |>.cons
      { p0 with location := (p0.location.1, p0.location.1 + (p0.shape : ℤ)) }).getD
        k default = _
    cases k with
    | zero =>
      simp
    | succ k =>
      have hk2 : k < rest.length := by
        rw [← hslen] at hk
        simpa using hk
      simp only [List.cons, List.getD_cons_succ]
      rw [stitch_partitions_getD rest (p0.location.1 + (p0.shape : ℤ)) k hk2]
      simp [List.take_succ_cons, add_assoc]

/-- C3 amended: `sort_partition_matrix` reorders the partitions so that the
index component along the aggregation axis runs 0, 1, ... in ascending order
of location start (the sorted order is a permutation of the input sorted by
the original starts); after reordering, every partition's end equals its new
start plus its own extent, each adjacent pair is stitched (earlier end =
later start), and the final partition's end equals the FIRST partition's
(unchanged) start plus the total of all partition extents - it equals the
full dimension length (the total extent) only when the first sorted start is
0, not in general as the claim states. -/
theorem C3_sort_partition_matrix_amended (parts : List AggPartition)
    (hne : parts ≠ []) :
    (sort_partition_matrix parts).length = parts.length ∧
    (sort_by_location_start parts).Perm parts ∧
    List.Sorted agg_part_le (sort_by_location_start parts) ∧
    (∀ k, k < parts.length →
      ((sort_partition_matrix parts).getD k default).index = k) ∧
    (∀ k, k + 1 < parts.length →
      ((sort_partition_matrix parts).getD k default).location.2 =
        ((sort_partition_matrix parts).getD (k + 1) default).location.1) ∧
    (∀ k, k + 1 < parts.length →
      ((sort_partition_matrix parts).getD k default).location.1 ≤
        ((sort_partition_matrix parts).getD (k + 1) default).location.1) ∧
    ((sort_partition_matrix parts).getD (parts.length - 1) default).location.2 =
      ((sort_partition_matrix parts).getD 0 default).location.1 +
        (parts.map (fun p => (p.shape : ℤ))).sum ∧
    (((sort_partition_matrix parts).getD 0 default).location.1 = 0 →
      ((sort_partition_matrix parts).getD (parts.length - 1) default).location.2 =
        (parts.map (fun p => (p.shape : ℤ))).sum) := by
  have hperm := List.perm_insertionSort agg_part_le parts
  have hsortlen : (sort_by_location_start parts).length = parts.length :=
    hperm.length_eq
  have hgetD := sort_partition_matrix_getD parts hne
  have hlen1 : 0 < parts.length := List.length_pos.mpr hne
  have hTmono : ∀ k, (((reindex_from 0 (sort_by_location_start parts)).take k).map
      (fun p => (p.shape : ℤ))).sum ≤
      (((reindex_from 0 (sort_by_location_start parts)).take (k + 1)).map
      (fun p => (p.shape : ℤ))).sum := by
    intro k
    rw [List.take_succ, List.map_append, List.sum_append]
    have : 0 ≤ ((reindex_from 0 (sort_by_location_start parts))[k]?.toList.map
        (fun p => (p.shape : ℤ))).sum := by
      cases (reindex_from 0 (sort_by_location_start parts))[k]? with
      | none => simp
      | some p => simp
    omega
  have hTfull : (((reindex_from 0 (sort_by_location_start parts)).take
      parts.length).map (fun p => (p.shape : ℤ))).sum =
      (parts.map (fun p => (p.shape : ℤ))).sum := by
    rw [reindex_from_take_map_shape, ← hsortlen, List.take_length]
    exact (hperm.map (fun p => (p.shape : ℤ))).sum_eq
  refine ⟨sort_partition_matrix_length parts, hperm,
    List.sorted_insertionSort agg_part_le parts, ?_, ?_, ?_, ?_⟩
  · intro k hk
    have hks : k < (sort_by_location_start parts).length := by omega
    rw [hgetD k hk, reindex_from_getD _ 0 k hks]
    simp
  · intro k hk
    rw [hgetD k (by omega), hgetD (k + 1) (by omega)]
  · intro k hk
    rw [hgetD k (by omega), hgetD (k + 1) (by omega)]
    simpa using hTmono k
  · have hfin := hgetD (parts.length - 1) (by omega)
    have hzero := hgetD 0 (by omega)
    have hsucc : parts.length - 1 + 1 = parts.length := by omega
    rw [hsucc] at hfin
    constructor
    · rw [hfin, hzero]
      simp only [List.take_zero, List.map_nil, List.sum_nil, add_zero]
      rw [hTfull]
    · intro h0
      rw [hzero] at h0
      simp only [List.take_zero, List.map_nil, List.sum_nil, add_zero] at h0
      rw [hfin]
      simp only [List.take_zero, List.map_nil, List.sum_nil, add_zero]
      rw [hTfull, h0]
      simp

/-- C3 counterexample: a single partition located at [5, 9) with extent 3.
After `sort_partition_matrix` its end is forced to start + shape = 8, which
differs from the full dimension length 3 (the total extent along the
aggregation axis), because the first partition's start (5) is never reset. -/
theorem C3_counterexample :
    sort_partition_matrix [{ index := 0, location := (5, 9), shape := 3 }] =
      [{ index := 0, location := (5, 8), shape := 3 }] ∧
    (([{ index := 0, location := (5, 9), shape := 3 }] : List AggPartition).map
      (fun p => (p.shape : ℤ))).sum = 3 ∧
    ((sort_partition_matrix
        [{ index := 0, location := (5, 9), shape := 3 }]).getD 0
        default).location.2 ≠
      (([{ index := 0, location := (5, 9), shape := 3 }] : List AggPartition).map
        (fun p => (p.shape : ℤ))).sum :=
  ⟨by decide, by decide, by decide⟩

/-- Witness for C3's amended statement on two out-of-order partitions of
extent 2 located at [4, 6) and [0, 2): adjacent partitions are stitched and
the final end equals the first sorted start plus the total extent. -/
theorem C3_witness :
    ((sort_partition_matrix
        [{ index := 0, location := (4, 6), shape := 2 },
         { index := 1, location := (0, 2), shape := 2 }]).getD 0
        default).location.2 =
      ((sort_partition_matrix
        [{ index := 0, location := (4, 6), shape := 2 },
         { index := 1, location := (0, 2), shape := 2 }]).getD (0 + 1)
        default).location.1 ∧
    ((sort_partition_matrix
        [{ index := 0, location := (4, 6), shape := 2 },
         { index := 1, location := (0, 2), shape := 2 }]).getD
        (([{ index := 0, location := (4, 6), shape := 2 },
            { index := 1, location := (0, 2), shape := 2 }] :
              List AggPartition).length - 1)
        default).location.2 =
      ((sort_partition_matrix
        [{ index := 0, location := (4, 6), shape := 2 },
         { index := 1, location := (0, 2), shape := 2 }]).getD 0
        default).location.1 +
      (([{ index := 0, location := (4, 6), shape := 2 },
          { index := 1, location := (0, 2), shape := 2 }] :
            List AggPartition).map (fun p => (p.shape : ℤ))).sum :=
  ⟨(C3_sort_partition_matrix_amended
      [{ index := 0, location := (4, 6), shape := 2 },
       { index := 1, location := (0, 2), shape := 2 }]
      (by decide)).2.2.2.2.1 0 (by decide),
   (C3_sort_partition_matrix_amended
      [{ index := 0, location := (4, 6), shape := 2 },
       { index := 1, location := (0, 2), shape := 2 }]
      (by decide)).2.2.2.2.2.2.1⟩

/-- Python negative-index wrap for `list[i-1]`: in a list of length n, index
`0 - 1` refers to the last element. -/
def pyPred (n i : ℕ) : ℕ := if i = 0 then n - 1 else i - 1

/-- The mutable state of `build_list_of_indices` (splitnc4.py): the float
corner `c_subfield` (modelled as exact rationals) and the integer fragment
indices `c_index` (stored in a float array in the source, but always holding
small exact integers). -/
structure OdoState where
  c_subfield : List ℚ
  c_index : List ℕ
deriving DecidableEq, Repr

/-- The backwards reset loop of `build_list_of_indices`:
`for i in range(len-1, -1, -1): if c_subfield[i] >= var_shape[i]: ...`,
processing index j-1 first and counting down; note the Python `[i-1]`
accesses wrap to the last element when i = 0. -/
def odo_reset_sweep (var_shape : List ℕ) (subfield_shape : List ℚ) :
    ℕ → OdoState → OdoState
  | 0, st => st
  | j + 1, st =>
    let st2 :=
      if (var_shape.getD j 0 : ℚ) ≤ st.c_subfield.getD j 0 then
        let p := pyPred subfield_shape.length j
        let c1 := st.c_subfield.set j 0
        let c2 := c1.set p (c1.getD p 0 + subfield_shape.getD p 0)
        let k1 := st.c_index.set j 0
        let k2 := k1.set p (k1.getD p 0 + 1)
        OdoState.mk c2 k2
      else st
    odo_reset_sweep var_shape subfield_shape j st2

/-- One advance of the odometer in `build_list_of_indices`:
`c_subfield[-1] += subfield_shape[-1]; c_index[-1] += 1` followed by the
reset sweep over all indices. -/
def odo_advance (var_shape : List ℕ) (subfield_shape : List ℚ)
    (st : OdoState) : OdoState :=
  let p := subfield_shape.length - 1
  odo_reset_sweep var_shape subfield_shape subfield_shape.length
    (OdoState.mk
      (st.c_subfield.set p (st.c_subfield.getD p 0 + subfield_shape.getD p 0))
      (st.c_index.set p (st.c_index.getD p 0 + 1)))

/-- One row of the arrays filled per iteration of `build_list_of_indices`:
the start corner `all_subfields[s,0,:]`, the end corner
`all_subfields[s,1,:] = c_subfield + subfield_shape`, and the fragment index
`all_indices[s,:]`. -/
structure SubfieldRecord where
  starts : List ℚ
  ends : List ℚ
  indices : List ℕ
deriving DecidableEq, Repr

/-- The iteration loop of `build_list_of_indices`: record the current corner
and index, then advance the odometer. -/
def build_loop (var_shape : List ℕ) (subfield_shape : List ℚ) :
    ℕ → OdoState → List SubfieldRecord
  | 0, _ => []
  | s + 1, st =>
    SubfieldRecord.mk st.c_subfield
      ((List.range subfield_shape.length).map
        (fun i => st.c_subfield.getD i 0 + subfield_shape.getD i 0))
      st.c_index ::
    build_loop var_shape subfield_shape s (odo_advance var_shape subfield_shape st)

/-- `build_list_of_indices` from splitnc4.py: `nsf` records starting from the
zero corner and zero index. -/
def build_list_of_indices (nsf : ℕ) (var_shape : List ℕ)
    (subfield_shape : List ℚ) : List SubfieldRecord :=
  build_loop var_shape subfield_shape nsf
    (OdoState.mk (List.replicate subfield_shape.length 0)
      (List.replicate subfield_shape.length 0))

/-- `n_subfiles` in `create_sub_file`:
`int(num_vals(var_info[1]) / num_vals(var_info[2]))`. -/
def n_subfiles (var_shape : List ℕ) (subfield_shape : List ℚ) : ℕ :=
  (pyInt ((num_vals var_shape : ℚ) / num_vals_q subfield_shape)).toNat

/-- The per-fragment `[start, end)` boxes computed by `create_sub_file`
(splitnc4.py lines 331-342): for each subfile and axis,
`ss = int(subfield_indices[sf,0,i])`, `es = int(subfield_indices[sf,1,i])`,
with `es` clamped down to the axis length when `es >= var_shape[i]` (the
int32 cast of the float arrays and the later `int()` both truncate). -/
def create_sub_file_ranges (var_shape : List ℕ) (subfield_shape : List ℚ) :
    List (List (ℤ × ℤ)) :=
  (build_list_of_indices (n_subfiles var_shape subfield_shape) var_shape
      subfield_shape).map
    (fun r => (List.range subfield_shape.length).map (fun i =>
      (pyInt (r.starts.getD i 0),
       if (var_shape.getD i 0 : ℤ) ≤ pyInt (r.ends.getD i 0) then
         (var_shape.getD i 0 : ℤ)
       else pyInt (r.ends.getD i 0))))

/-- The per-axis float chunk lengths `var.shape / c_subfield_divs` returned
by `calculate_subfield_shape` and passed to `create_sub_file`. -/
def subfield_shape_of (var_shape divs : List ℕ) : List ℚ :=
  (List.range var_shape.length).map
    (fun i => (var_shape.getD i 0 : ℚ) / (divs.getD i 0 : ℚ))

/-- Mixed-radix digits of `s` for the radix list `divs`, most significant
first, the last digit fastest-varying (row-major fragment enumeration). -/
def digits_of : List ℕ → ℕ → List ℕ
  | [], _ => []
  | d0 :: rest, s => (s / rest.prod % d0) :: digits_of rest (s % rest.prod)

/-- The odometer state corresponding to digit vector `k`: each float corner
component is the digit times the per-axis chunk length. -/
def qstate (var_shape divs : List ℕ) (k : List ℕ) : OdoState :=
  OdoState.mk
    ((List.range var_shape.length).map
      (fun i => (k.getD i 0 : ℚ) *
        ((var_shape.getD i 0 : ℚ) / (divs.getD i 0 : ℚ))))
    k

/-- The pure digit-level mirror of `odo_reset_sweep` (same index walk, same
Python wrap at index 0): a digit at or above its radix is reset to 0 and the
previous digit incremented. -/
def nat_sweep (divs : List ℕ) : ℕ → List ℕ → List ℕ
  | 0, k => k
  | j + 1, k =>
    let k2 :=
      if divs.getD j 0 ≤ k.getD j 0 then
        let p := pyPred divs.length j
        let k1 := k.set j 0
        k1.set p (k1.getD p 0 + 1)
      else k
    nat_sweep divs j k2

theorem getD_map_range {α : Type} (f : ℕ → α) (dflt : α) (n i : ℕ) (hi : i < n) :
    ((List.range n).map f).getD i dflt = f i := by
  rw [List.getD_eq_getElem _ _ (by simpa using hi)]
  simp

theorem set_map_range {α : Type} (f : ℕ → α) (n i : ℕ) (v : α) :
    ((List.range n).map f).set i v =
      (List.range n).map (fun j => if j = i then v else f j) := by
  apply List.ext_getElem
  · simp
  · intro j hj1 hj2
    simp only [List.length_set, List.length_map, List.length_range] at hj1
    rw [List.getElem_set]
    rcases eq_or_ne i j with h | h
    · subst h; simp
    · rw [if_neg h]
      simp [Ne.symm h]

theorem getD_set {α : Type} (l : List α) (i j : ℕ) (v d : α) :
    (l.set i v).getD j d = if i = j ∧ j < l.length then v else l.getD j d := by
  by_cases hj : j < l.length
  · rw [List.getD_eq_getElem _ _ (by simpa using hj), List.getElem_set]
    rcases eq_or_ne i j with h | h
    · simp [h, hj]
    · simp only [h, false_and, if_false, if_neg h]
      rw [List.getD_eq_getElem _ _ hj]
  · rw [if_neg (by tauto)]
    rw [List.getD_eq_getElem?_getD, List.getD_eq_getElem?_getD]
    rw [List.getElem?_eq_none (by simpa using hj),
      List.getElem?_eq_none (by simpa [Nat.le_of_not_lt] using hj)]

theorem getD_last_index {α : Type} (l : List α) (d : α) (h : l ≠ []) :
    l.getD (l.length - 1) d = l.getLastD d := by
  induction l with
  | nil => exact absurd rfl h
  | cons x xs ih =>
    cases xs with
    | nil => rfl
    | cons y ys =>
      have hne : (y :: ys) ≠ [] := by simp
      have : (x :: y :: ys).length - 1 = ((y :: ys).length - 1) + 1 := by
        simp
      rw [this, List.getD_cons_succ, ih hne]
      rfl

theorem set_last_index {α : Type} (l : List α) (v : α) (h : l ≠ []) :
    l.set (l.length - 1) v = l.dropLast ++ [v] := by
  induction l with
  | nil => exact absurd rfl h
  | cons x xs ih =>
    cases xs with
    | nil => rfl
    | cons y ys =>
      have hne : (y :: ys) ≠ [] := by simp
      have : (x :: y :: ys).length - 1 = ((y :: ys).length - 1) + 1 := by
        simp
      rw [this]
      show x :: (y :: ys).set ((y :: ys).length - 1) v = _
      rw [ih hne]
      rfl

theorem digits_of_length (d : List ℕ) : ∀ s, (digits_of d s).length = d.length := by
  induction d with
  | nil => intro s; rfl
  | cons d0 rest ih => intro s; simp [digits_of, ih]

theorem digits_of_zero (d : List ℕ) : digits_of d 0 = List.replicate d.length 0 := by
  induction d with
  | nil => rfl
  | cons d0 rest ih => simp [digits_of, ih, List.replicate_succ]

theorem digits_of_max (d : List ℕ) (hd : ∀ x ∈ d, 1 ≤ x) :
    digits_of d (d.prod - 1) = d.map (fun e => e - 1) := by
  induction d with
  | nil => rfl
  | cons d0 rest ih =>
    have hrest : ∀ x ∈ rest, 1 ≤ x := fun x hx => hd x (List.mem_cons_of_mem _ hx)
    have hd0 : 1 ≤ d0 := hd d0 (List.mem_cons_self _ _)
    have hR : 1 ≤ rest.prod := one_le_prod rest hrest
    have hval : (d0 :: rest).prod - 1 = (rest.prod - 1) + (d0 - 1) * rest.prod := by
      rw [List.prod_cons]
      cases d0 with
      | zero => omega
      | succ d0' =>
        have h1 : (d0' + 1) * rest.prod = d0' * rest.prod + rest.prod := by ring
        have h2 : d0' + 1 - 1 = d0' := rfl
        rw [h2, h1]
        omega
    simp only [digits_of, hval]
    have hdiv : ((rest.prod - 1) + (d0 - 1) * rest.prod) / rest.prod = d0 - 1 := by
      rw [Nat.add_mul_div_right _ _ (by omega : 0 < rest.prod),
        Nat.div_eq_of_lt (by omega)]
      omega
    have hmod : ((rest.prod - 1) + (d0 - 1) * rest.prod) % rest.prod =
        rest.prod - 1 := by
      rw [Nat.add_mul_mod_self_right]
      exact Nat.mod_eq_of_lt (by omega)
    rw [hdiv, hmod, Nat.mod_eq_of_lt (by omega), ih hrest]
    rfl

theorem digits_of_getD (d : List ℕ) (hd : ∀ x ∈ d, 1 ≤ x) :
    ∀ s i, i < d.length →
      (digits_of d s).getD i 0 = s / (d.drop (i + 1)).prod % d.getD i 0 := by
  induction d with
  | nil => intro s i hi; simp at hi
  | cons d0 rest ih =>
    intro s i hi
    have hrest : ∀ x ∈ rest, 1 ≤ x := fun x hx => hd x (List.mem_cons_of_mem _ hx)
    cases i with
    | zero => simp [digits_of]
    | succ i =>
      have hi2 : i < rest.length := by simpa using hi
      simp only [digits_of, List.getD_cons_succ, List.drop_succ_cons]
      rw [ih hrest (s % rest.prod) i hi2]
      have hCF : (rest.take (i + 1)).prod * (rest.drop (i + 1)).prod = rest.prod :=
        List.prod_take_mul_prod_drop rest (i + 1)
      have hmdvd : rest.getD i 0 ∣ (rest.take (i + 1)).prod := by
      
        have hitake : i < (rest.take (i + 1)).length := by
          simp [Nat.lt_succ_iff, hi2, Nat.le_of_lt hi2]
        have hval : rest.getD i 0 = (rest.take (i + 1)).getD i 0 := by
          rw [List.getD_eq_getElem _ _ hi2, List.getD_eq_getElem _ _ hitake]
          rw [List.getElem_take]
        rw [hval, List.getD_eq_getElem _ _ hitake]
        exact List.dvd_prod (List.getElem_mem hitake)
      have hsplit : rest.prod = (rest.drop (i + 1)).prod * (rest.take (i + 1)).prod := by
        rw [mul_comm]
        exact hCF.symm
      rw [hsplit, Nat.mod_mul_right_div_self, Nat.mod_mod_of_dvd _ hmdvd]

theorem digits_of_lt (d : List ℕ) (hd : ∀ x ∈ d, 1 ≤ x) :
    ∀ s i, i < d.length → (digits_of d s).getD i 0 < d.getD i 0 := by
  intro s i hi
  rw [digits_of_getD d hd s i hi]
  apply Nat.mod_lt
  have hmem : d.getD i 0 ∈ d := by
    rw [List.getD_eq_getElem _ _ hi]
    exact List.getElem_mem hi
  have := hd _ hmem
  omega

theorem digits_succ_decomp (d : List ℕ) (hd : ∀ x ∈ d, 1 ≤ x) :
    ∀ s, s + 1 < d.prod →
      ∃ D dq E P m, d = D ++ dq :: E ∧ P.length = D.length ∧
        (∀ i, i < D.length → P.getD i 0 < D.getD i 0) ∧
        m + 1 < dq ∧
        digits_of d s = P ++ m :: E.map (fun e => e - 1) ∧
        digits_of d (s + 1) = P ++ (m + 1) :: List.replicate E.length 0 := by
  induction d with
  | nil =>
    intro s hs
    simp at hs
  | cons d0 rest ih =>
    intro s hs
    have hrest : ∀ x ∈ rest, 1 ≤ x := fun x hx => hd x (List.mem_cons_of_mem _ hx)
    have hd0 : 1 ≤ d0 := hd d0 (List.mem_cons_self _ _)
    have hR : 1 ≤ rest.prod := one_le_prod rest hrest
    have hprod : (d0 :: rest).prod = d0 * rest.prod := List.prod_cons
    rw [hprod] at hs
    by_cases hcarry : s % rest.prod + 1 < rest.prod
    · obtain ⟨D, dq, E, P, m, hdec, hplen, hplt, hm, hds, hds1⟩ :=
        ih hrest (s % rest.prod) hcarry
      refine ⟨d0 :: D, dq, E, (s / rest.prod % d0) :: P, m, by rw [hdec]; rfl,
        by simpa using hplen, ?_, hm, ?_, ?_⟩
      · intro i hi
        cases i with
        | zero =>
          simpa using Nat.mod_lt _ (by omega)
        | succ i =>
          have hi2 : i < D.length := by simpa using hi
          simpa using hplt i hi2
      · simp only [digits_of, hds]
        rfl
      · have hndvd : (s + 1) % rest.prod = s % rest.prod + 1 := by
          conv_lhs => rw [← Nat.div_add_mod s rest.prod]
          rw [Nat.add_assoc, Nat.mul_add_mod]
          exact Nat.mod_eq_of_lt hcarry
        have hnd : ¬ rest.prod ∣ (s + 1) := by
          intro hdvd
          have h0 : (s + 1) % rest.prod = 0 := Nat.dvd_iff_mod_eq_zero.mp hdvd
          omega
        have hdiv : (s + 1) / rest.prod = s / rest.prod := by
          rw [Nat.succ_div, if_neg hnd, Nat.add_zero]
        simp only [digits_of, hdiv, hndvd, hds1]
        rfl
    · have hs' : s % rest.prod < rest.prod := Nat.mod_lt _ (by omega)
      have hmax : s % rest.prod = rest.prod - 1 := by omega
      have hsplit : s = rest.prod * (s / rest.prod) + (rest.prod - 1) := by
        conv_lhs => rw [← Nat.div_add_mod s rest.prod]
        rw [hmax]
      have hsucc : s + 1 = rest.prod * (s / rest.prod + 1) := by
        rw [Nat.mul_add, Nat.mul_one]
        omega
      have hmlt : s / rest.prod + 1 < d0 := by
        by_contra hge
        push_neg at hge
        have : d0 * rest.prod ≤ (s / rest.prod + 1) * rest.prod :=
          Nat.mul_le_mul_right _ hge
        rw [Nat.mul_comm (s / rest.prod + 1) rest.prod] at this
        omega
      refine ⟨[], d0, rest, [], s / rest.prod, rfl, rfl, by intro i hi; simp at hi,
        hmlt, ?_, ?_⟩
      · simp only [digits_of]
        have h1 : s / rest.prod % d0 = s / rest.prod := by
          apply Nat.mod_eq_of_lt
          omega
        rw [h1, hmax, digits_of_max rest hrest]
        rfl
      · simp only [digits_of]
        have h2 : (s + 1) / rest.prod = s / rest.prod + 1 := by
          rw [hsucc, Nat.mul_div_cancel_left _ (by omega : 0 < rest.prod)]
        have h3 : (s + 1) % rest.prod = 0 := by
          rw [hsucc]
          exact Nat.mul_mod_right _ _
        rw [h2, h3, Nat.mod_eq_of_lt hmlt, digits_of_zero]
        rfl

theorem nat_sweep_noop (d : List ℕ) :
    ∀ j (k : List ℕ), (∀ i, i < j → k.getD i 0 < d.getD i 0) →
      nat_sweep d j k = k := by
  intro j
  induction j with
  | zero => intro k h; rfl
  | succ j ih =>
    intro k h
    show nat_sweep d j
      (if d.getD j 0 ≤ k.getD j 0 then
        ((k.set j 0).set (pyPred d.length j) ((k.set j 0).getD (pyPred d.length j) 0 + 1))
      else k) = k
    rw [if_neg (Nat.not_le.mpr (h j (Nat.lt_succ_self j)))]
    exact ih k (fun i hi => h i (Nat.lt_succ_of_lt hi))

theorem getD_append_add {α : Type} (A B : List α) (t : ℕ) (dflt : α) :
    (A ++ B).getD (A.length + t) dflt = B.getD t dflt := by
  rw [List.getD_append_right _ _ _ _ (Nat.le_add_right _ _)]
  simp

theorem set_append_add {α : Type} (A B : List α) (t : ℕ) (v : α) :
    (A ++ B).set (A.length + t) v = A ++ B.set t v := by
  rw [List.set_append_right _ _ (Nat.le_add_right _ _)]
  simp

theorem nat_sweep_casc (dq : ℕ) (E : List ℕ) :
    ∀ (hE : ∀ x ∈ E, 1 ≤ x) (Z D P : List ℕ) (m : ℕ),
      P.length = D.length →
      (∀ i, i < D.length → P.getD i 0 < D.getD i 0) →
      m + 1 < dq →
      nat_sweep (D ++ dq :: (E ++ Z)) (D.length + 1 + E.length)
        (P ++ ((m :: E.map (fun e => e - 1)).dropLast ++
          [(m :: E.map (fun e => e - 1)).getLastD 0 + 1]) ++
          List.replicate Z.length 0) =
      P ++ (m + 1) :: List.replicate (E.length + Z.length) 0 := by
  induction E using List.reverseRecOn with
  | nil =>
    intro hE Z D P m hplen hplt hm
    have hmid : ((m :: List.map (fun e => e - 1) []).dropLast ++
        [(m :: List.map (fun e => e - 1) []).getLastD 0 + 1]) = [m + 1] := rfl
    rw [hmid]
    have hk : P ++ [m + 1] ++ List.replicate Z.length 0 =
        P ++ (m + 1) :: List.replicate Z.length 0 := by simp
    rw [hk]
    simp only [List.length_nil, Nat.add_zero, Nat.zero_add, List.nil_append]
    apply nat_sweep_noop
    intro i hi
    rcases Nat.lt_or_ge i D.length with hilt | hige
    · rw [List.getD_append _ _ _ _ (show i < D.length from hilt),
        List.getD_append _ _ _ _ (show i < P.length by omega)]
      exact hplt i hilt
    · have hieq : i = D.length := by omega
      subst hieq
      have h1 : (D ++ dq :: Z).getD D.length 0 = dq := by
        rw [List.getD_append_right _ _ _ _ (le_refl _)]
        simp
      have h2 : (P ++ (m + 1) :: List.replicate Z.length 0).getD D.length 0 =
          m + 1 := by
        rw [← hplen, List.getD_append_right _ _ _ _ (le_refl _)]
        simp
      rw [h1, h2]
      omega
  | append_singleton E0 el ih =>
    intro hE Z D P m hplen hplt hm
    have hel : 1 ≤ el := hE el (by simp)
    have hE0 : ∀ x ∈ E0, 1 ≤ x := fun x hx => hE x (by simp [hx])
    have hmid_map : (E0 ++ [el]).map (fun e => e - 1) =
        E0.map (fun e => e - 1) ++ [el - 1] := by simp
    have hdrop : (m :: (E0.map (fun e => e - 1) ++ [el - 1])).dropLast =
        m :: E0.map (fun e => e - 1) := by
      have hsh : m :: (E0.map (fun e => e - 1) ++ [el - 1]) =
          (m :: E0.map (fun e => e - 1)) ++ [el - 1] := rfl
      rw [hsh]
      exact List.dropLast_concat
    have hlast : (m :: (E0.map (fun e => e - 1) ++ [el - 1])).getLastD 0 =
        el - 1 := by
      show ((m :: E0.map (fun e => e - 1)) ++ [el - 1]).getLastD 0 = el - 1
      rw [List.getLastD_eq_getLast?, List.getLast?_concat]
      rfl
    rw [hmid_map, hdrop, hlast]
    have helv : el - 1 + 1 = el := by omega
    rw [helv]
    have hcount : D.length + 1 + (E0 ++ [el]).length =
        (D.length + 1 + E0.length) + 1 := by
      simp only [List.length_append, List.length_cons, List.length_nil]
      omega
    rw [hcount]
    set M := E0.map (fun e => e - 1) with hMdef
    have hMlen : M.length = E0.length := by rw [hMdef]; simp
    set rep := List.replicate Z.length 0 with hrepdef
    -- the swept list and radix list, fully right associated
    have hkform : P ++ ((m :: M) ++ [el]) ++ rep =
        P ++ ((m :: M) ++ ([el] ++ rep)) := by simp
    have hdform : D ++ dq :: (E0 ++ [el] ++ Z) = D ++ dq :: (E0 ++ ([el] ++ Z)) := by
      simp
    rw [hkform, hdform]
    -- one sweep step at index j = D.length + 1 + E0.length
    show nat_sweep (D ++ dq :: (E0 ++ ([el] ++ Z))) (D.length + 1 + E0.length)
      (if (D ++ dq :: (E0 ++ ([el] ++ Z))).getD (D.length + 1 + E0.length) 0 ≤
          (P ++ ((m :: M) ++ ([el] ++ rep))).getD (D.length + 1 + E0.length) 0
       then (((P ++ ((m :: M) ++ ([el] ++ rep))).set (D.length + 1 + E0.length) 0).set
          (pyPred (D ++ dq :: (E0 ++ ([el] ++ Z))).length (D.length + 1 + E0.length))
          (((P ++ ((m :: M) ++ ([el] ++ rep))).set (D.length + 1 + E0.length) 0).getD
            (pyPred (D ++ dq :: (E0 ++ ([el] ++ Z))).length
              (D.length + 1 + E0.length)) 0 + 1))
       else (P ++ ((m :: M) ++ ([el] ++ rep)))) =
      P ++ (m + 1) :: List.replicate ((E0 ++ [el]).length + Z.length) 0
    have hdval : (D ++ dq :: (E0 ++ ([el] ++ Z))).getD
        (D.length + 1 + E0.length) 0 = el := by
      have hj1 : D.length + 1 + E0.length = D.length + (E0.length + 1) := by omega
      rw [hj1, getD_append_add, List.getD_cons_succ,
        List.getD_append_right _ _ _ _ (le_refl _)]
      simp
    have hkval : (P ++ ((m :: M) ++ ([el] ++ rep))).getD
        (D.length + 1 + E0.length) 0 = el := by
      have hj2 : D.length + 1 + E0.length = P.length + (M.length + 1) := by omega
      rw [hj2, getD_append_add]
      show (m :: (M ++ ([el] ++ rep))).getD (M.length + 1) 0 = el
      rw [List.getD_cons_succ, List.getD_append_right _ _ _ _ (le_refl _)]
      simp
    rw [hdval, hkval, if_pos (le_refl el)]
    have hpyp : pyPred (D ++ dq :: (E0 ++ ([el] ++ Z))).length
        (D.length + 1 + E0.length) = P.length + M.length := by
      unfold pyPred
      rw [if_neg (by omega)]
      omega
    rw [hpyp]
    have hset1 : (P ++ ((m :: M) ++ ([el] ++ rep))).set
        (D.length + 1 + E0.length) 0 = P ++ ((m :: M) ++ ([0] ++ rep)) := by
      have hj2 : D.length + 1 + E0.length = P.length + (M.length + 1) := by omega
      rw [hj2, set_append_add]
      refine congrArg (fun t => P ++ t) ?_
      show (m :: (M ++ ([el] ++ rep))).set (M.length + 1) 0 =
        m :: (M ++ ([0] ++ rep))
      rw [List.set_cons_succ, List.set_append_right _ _ (le_refl _)]
      simp
    rw [hset1]
    have hget2 : (P ++ ((m :: M) ++ ([0] ++ rep))).getD (P.length + M.length) 0 =
        (m :: M).getLastD 0 := by
      have hj3 : P.length + M.length = P.length + (M.length + 0) := by omega
      rw [hj3, getD_append_add]
      rw [List.getD_append _ _ _ _ (by simp)]
      have hj4 : M.length + 0 = (m :: M).length - 1 := by simp
      rw [hj4, getD_last_index _ _ (by simp)]
    rw [hget2]
    have hset2 : (P ++ ((m :: M) ++ ([0] ++ rep))).set (P.length + M.length)
        ((m :: M).getLastD 0 + 1) =
        P ++ (((m :: M).dropLast ++ [(m :: M).getLastD 0 + 1]) ++ ([0] ++ rep)) := by
      have hj3 : P.length + M.length = P.length + (M.length + 0) := by omega
      rw [hj3, set_append_add]
      refine congrArg (fun t => P ++ t) ?_
      rw [List.set_append_left _ _ (by simp)]
      have hj4 : M.length + 0 = (m :: M).length - 1 := by simp
      rw [hj4, set_last_index _ _ (by simp)]
    rw [hset2]
    -- the resulting state is exactly the inductive hypothesis state with el :: Z
    have hihstate : P ++ (((m :: M).dropLast ++ [(m :: M).getLastD 0 + 1]) ++
        ([0] ++ rep)) =
        P ++ ((m :: M).dropLast ++ [(m :: M).getLastD 0 + 1]) ++
          List.replicate (el :: Z).length 0 := by
      rw [hrepdef]
      simp [List.replicate_succ, List.append_assoc]
    have hihradix : D ++ dq :: (E0 ++ ([el] ++ Z)) = D ++ dq :: (E0 ++ (el :: Z)) := by
      simp
    rw [hihstate, hihradix]
    have hgoal := ih hE0 (el :: Z) D P m hplen hplt hm
    have hlast2 : (m :: M).getLastD 0 = (m :: M).getLastD 0 := rfl
    rw [hMdef] at hgoal ⊢
    rw [hgoal]
    have hlen3 : E0.length + (el :: Z).length = (E0 ++ [el]).length + Z.length := by
      simp only [List.length_append, List.length_cons, List.length_nil]
      omega
    rw [hlen3]

theorem getLastD_append_of_ne_nil {α : Type} (A B : List α) (h : B ≠ []) (d : α) :
    (A ++ B).getLastD d = B.getLastD d := by
  rw [List.getLastD_eq_getLast?, List.getLastD_eq_getLast?,
    List.getLast?_append_of_ne_nil _ h]

theorem nat_sweep_bump (d : List ℕ) (hd : ∀ x ∈ d, 1 ≤ x) (s : ℕ)
    (hs : s + 1 < d.prod) :
    nat_sweep d d.length
      ((digits_of d s).set (d.length - 1)
        ((digits_of d s).getD (d.length - 1) 0 + 1)) =
    digits_of d (s + 1) := by
  obtain ⟨D, dq, E, P, m, hdec, hplen, hplt, hm, hds, hds1⟩ :=
    digits_succ_decomp d hd s hs
  have hlen_digits : (digits_of d s).length = d.length := digits_of_length d s
  have hne : digits_of d s ≠ [] := by
    rw [hds]
    simp
  have hbump : (digits_of d s).set (d.length - 1)
      ((digits_of d s).getD (d.length - 1) 0 + 1) =
      (digits_of d s).dropLast ++ [(digits_of d s).getLastD 0 + 1] := by
    rw [← hlen_digits, getD_last_index _ _ hne, set_last_index _ _ hne]
  rw [hbump, hds]
  have hmid_ne : (m :: E.map (fun e => e - 1)) ≠ [] := by simp
  rw [List.dropLast_append_of_ne_nil _ hmid_ne,
    getLastD_append_of_ne_nil _ _ hmid_ne]
  have hE1 : ∀ x ∈ E, 1 ≤ x := by
    intro x hx
    apply hd
    rw [hdec]
    simp [hx]
  have hc := nat_sweep_casc dq E hE1 [] D P m hplen hplt hm
  simp only [List.length_nil, List.replicate_zero, List.append_nil,
    Nat.add_zero] at hc
  have hdlen : d.length = D.length + 1 + E.length := by
    rw [hdec]
    simp only [List.length_append, List.length_cons]
    omega
  rw [hds1, hdec]
  rw [show (D ++ dq :: E).length = D.length + 1 + E.length by
    simp only [List.length_append, List.length_cons]; omega]
  rw [← List.append_assoc] at hc
  rw [hc]


theorem le_mul_div_iff_nat (Li di k : ℕ) (hL : 1 ≤ Li) (hdi : 1 ≤ di) :
    ((Li : ℚ) ≤ (k : ℚ) * ((Li : ℚ) / (di : ℚ))) ↔ di ≤ k := by
  have hL0 : (0 : ℚ) < (Li : ℚ) := by exact_mod_cast hL
  have hd0 : (0 : ℚ) < (di : ℚ) := by exact_mod_cast hdi
  rw [← mul_div_assoc, le_div_iff₀ hd0, mul_comm ((Li : ℚ)) ((di : ℚ)),
    mul_le_mul_right hL0]
  exact_mod_cast Iff.rfl

theorem map_range_congr {α : Type} (f g : ℕ → α) (n : ℕ)
    (h : ∀ i, i < n → f i = g i) :
    (List.range n).map f = (List.range n).map g := by
  apply List.map_congr_left
  intro a ha
  exact h a (List.mem_range.mp ha)

theorem subfield_shape_of_length (L d : List ℕ) :
    (subfield_shape_of L d).length = L.length := by
  simp [subfield_shape_of]

theorem subfield_shape_of_getD (L d : List ℕ) (i : ℕ) (hi : i < L.length) :
    (subfield_shape_of L d).getD i 0 = (L.getD i 0 : ℚ) / (d.getD i 0 : ℚ) :=
  getD_map_range _ _ _ _ hi

theorem odo_reset_sweep_succ (L : List ℕ) (ss : List ℚ) (j : ℕ) (st : OdoState) :
    odo_reset_sweep L ss (j + 1) st =
    odo_reset_sweep L ss j
      (if (L.getD j 0 : ℚ) ≤ st.c_subfield.getD j 0 then
        OdoState.mk
          ((st.c_subfield.set j 0).set (pyPred ss.length j)
            ((st.c_subfield.set j 0).getD (pyPred ss.length j) 0 +
              ss.getD (pyPred ss.length j) 0))
          ((st.c_index.set j 0).set (pyPred ss.length j)
            ((st.c_index.set j 0).getD (pyPred ss.length j) 0 + 1))
      else st) := rfl

theorem nat_sweep_succ (d : List ℕ) (j : ℕ) (k : List ℕ) :
    nat_sweep d (j + 1) k =
    nat_sweep d j
      (if d.getD j 0 ≤ k.getD j 0 then
        (k.set j 0).set (pyPred d.length j) ((k.set j 0).getD (pyPred d.length j) 0 + 1)
      else k) := rfl

theorem odo_sweep_sim (L d : List ℕ) (hlen : d.length = L.length)
    (hL : ∀ x ∈ L, 1 ≤ x) (hd : ∀ x ∈ d, 1 ≤ x) :
    ∀ j, j ≤ L.length → ∀ k : List ℕ, k.length = d.length →
      odo_reset_sweep L (subfield_shape_of L d) j (qstate L d k) =
      qstate L d (nat_sweep d j k) := by
  intro j
  induction j with
  | zero => intro hj k hk; rfl
  | succ j ih =>
    intro hj k hk
    have hjL : j < L.length := by omega
    have hjd : j < d.length := by omega
    have hLj : 1 ≤ L.getD j 0 := by
      apply hL
      rw [List.getD_eq_getElem _ _ hjL]
      exact List.getElem_mem hjL
    have hdj : 1 ≤ d.getD j 0 := by
      apply hd
      rw [List.getD_eq_getElem _ _ hjd]
      exact List.getElem_mem hjd
    have hcval : (qstate L d k).c_subfield.getD j 0 =
        (k.getD j 0 : ℚ) * ((L.getD j 0 : ℚ) / (d.getD j 0 : ℚ)) :=
      getD_map_range _ _ _ _ hjL
    have hcond : ((L.getD j 0 : ℚ) ≤ (qstate L d k).c_subfield.getD j 0) ↔
        (d.getD j 0 ≤ k.getD j 0) := by
      rw [hcval]
      exact le_mul_div_iff_nat _ _ _ hLj hdj
    have hplen : pyPred (subfield_shape_of L d).length j = pyPred d.length j := by
      rw [subfield_shape_of_length, hlen]
    have hpd : pyPred d.length j < d.length := by
      unfold pyPred
      split <;> omega
    have hpL : pyPred d.length j < L.length := by omega
    rw [odo_reset_sweep_succ, nat_sweep_succ, hplen]
    by_cases hc : d.getD j 0 ≤ k.getD j 0
    · rw [if_pos (hcond.mpr hc), if_pos hc]
      have hsim := ih (by omega)
        ((k.set j 0).set (pyPred d.length j)
          ((k.set j 0).getD (pyPred d.length j) 0 + 1))
        (by simp only [List.length_set]; exact hk)
      rw [← hsim]
      congr 1
      dsimp only [qstate]
      congr 1
      rw [set_map_range]
      rw [getD_map_range _ _ _ _ hpL, subfield_shape_of_getD _ _ _ hpL]
      rw [set_map_range]
      apply map_range_congr
      intro i hi
      dsimp only
      rw [getD_set, getD_set, getD_set]
      simp only [List.length_set]
      rw [hk]
      split_ifs <;> first | omega | ((try subst i) <;> push_cast <;> ring)
    · rw [if_neg (fun hh => hc (hcond.mp hh)), if_neg hc]
      exact ih (by omega) k hk

theorem odo_advance_digits (L d : List ℕ) (hlen : d.length = L.length)
    (hL : ∀ x ∈ L, 1 ≤ x) (hd : ∀ x ∈ d, 1 ≤ x) (hd0 : 0 < d.length)
    (s : ℕ) (hs : s + 1 < d.prod) :
    odo_advance L (subfield_shape_of L d) (qstate L d (digits_of d s)) =
    qstate L d (digits_of d (s + 1)) := by
  have hp1d : d.length - 1 < d.length := by omega
  have hp1L : d.length - 1 < L.length := by omega
  dsimp only [odo_advance]
  rw [subfield_shape_of_length, ← hlen]
  rw [← nat_sweep_bump d hd s hs]
  rw [← odo_sweep_sim L d hlen hL hd d.length (by omega)
    ((digits_of d s).set (d.length - 1)
      ((digits_of d s).getD (d.length - 1) 0 + 1))
    (by simp only [List.length_set]; exact digits_of_length d s)]
  congr 1
  dsimp only [qstate]
  congr 1
  rw [getD_map_range _ _ _ _ hp1L, subfield_shape_of_getD _ _ _ hp1L]
  rw [set_map_range]
  apply map_range_congr
  intro i hi
  dsimp only
  rw [getD_set]
  simp only [digits_of_length]
  split_ifs <;> first | omega | ((try subst i) <;> push_cast <;> ring)

theorem foldl_mul_eq_q (xs : List ℚ) : ∀ a, xs.foldl (fun b c => b * c) a = a * xs.prod := by
  induction xs with
  | nil => intro a; simp
  | cons x xs ih => intro a; simp only [List.foldl_cons, ih, List.prod_cons, mul_assoc]

theorem num_vals_q_eq_prod (l : List ℚ) : num_vals_q l = l.prod := by
  cases l with
  | nil => rfl
  | cons x xs => simp [num_vals_q, foldl_mul_eq_q]

theorem sshape_prod_aux (L d : List ℕ) :
    ∀ n, n ≤ L.length → n ≤ d.length →
      ((List.range n).map
        (fun i => (L.getD i 0 : ℚ) / (d.getD i 0 : ℚ))).prod =
      ((L.take n).prod : ℚ) / ((d.take n).prod : ℚ) := by
  intro n
  induction n with
  | zero => intro h1 h2; simp
  | succ n ih =>
    intro h1 h2
    have hnL : n < L.length := by omega
    have hnd : n < d.length := by omega
    rw [List.range_succ, List.map_append, List.prod_append]
    rw [ih (by omega) (by omega)]
    simp only [List.map_cons, List.map_nil, List.prod_cons, List.prod_nil, mul_one]
    rw [List.take_succ, List.take_succ]
    rw [List.getElem?_eq_getElem hnL, List.getElem?_eq_getElem hnd]
    simp only [Option.toList_some, List.prod_append, List.prod_cons, List.prod_nil,
      mul_one]
    rw [List.getD_eq_getElem _ _ hnL, List.getD_eq_getElem _ _ hnd]
    push_cast
    rw [div_mul_div_comm]

theorem sshape_prod (L d : List ℕ) (hlen : d.length = L.length) :
    (subfield_shape_of L d).prod = ((L.prod : ℚ)) / ((d.prod : ℚ)) := by
  unfold subfield_shape_of
  rw [sshape_prod_aux L d L.length le_rfl (by omega)]
  rw [List.take_length]
  rw [← hlen, List.take_length]

theorem pyInt_natCast (n : ℕ) : pyInt ((n : ℚ)) = (n : ℤ) := by
  unfold pyInt
  rw [if_neg (not_lt.mpr (by positivity))]
  exact Int.floor_natCast n

theorem n_subfiles_eq (L d : List ℕ) (hlen : d.length = L.length)
    (hL : ∀ x ∈ L, 1 ≤ x) :
    n_subfiles L (subfield_shape_of L d) = d.prod := by
  unfold n_subfiles
  rw [num_vals_eq_prod, num_vals_q_eq_prod, sshape_prod L d hlen]
  have hLp : (0 : ℚ) < (L.prod : ℚ) := by
    exact_mod_cast one_le_prod L hL
  rw [div_div_eq_mul_div, mul_comm, mul_div_assoc, div_self (ne_of_gt hLp), mul_one]
  rw [pyInt_natCast, Int.toNat_natCast]

/-- The fragment record the odometer produces at step `s`: the start corner is
digit times chunk length per axis, the end corner one chunk further, and the
index vector is the mixed-radix digits of `s`. -/
def frag_record (L d : List ℕ) (s : ℕ) : SubfieldRecord :=
  SubfieldRecord.mk
    (qstate L d (digits_of d s)).c_subfield
    ((List.range (subfield_shape_of L d).length).map
      (fun i => (qstate L d (digits_of d s)).c_subfield.getD i 0 +
        (subfield_shape_of L d).getD i 0))
    (digits_of d s)

theorem qstate_zero (L d : List ℕ) (hlen : d.length = L.length) :
    qstate L d (digits_of d 0) =
    OdoState.mk (List.replicate (subfield_shape_of L d).length 0)
      (List.replicate (subfield_shape_of L d).length 0) := by
  rw [subfield_shape_of_length, digits_of_zero, hlen]
  unfold qstate
  congr 1
  apply List.ext_getElem
  · simp
  · intro i h1 h2
    simp only [List.length_map, List.length_range] at h1
    rw [List.getElem_map, List.getElem_range, List.getElem_replicate]
    rw [List.getD_eq_getElem _ _ (by simpa using h1), List.getElem_replicate]
    push_cast
    ring

theorem build_loop_succ (L : List ℕ) (ss : List ℚ) (cnt : ℕ) (st : OdoState) :
    build_loop L ss (cnt + 1) st =
    SubfieldRecord.mk st.c_subfield
      ((List.range ss.length).map (fun i => st.c_subfield.getD i 0 + ss.getD i 0))
      st.c_index ::
    build_loop L ss cnt (odo_advance L ss st) := rfl

theorem build_loop_getD (L d : List ℕ) (hlen : d.length = L.length)
    (hL : ∀ x ∈ L, 1 ≤ x) (hd : ∀ x ∈ d, 1 ≤ x) (hd0 : 0 < d.length) :
    ∀ cnt t r, t + cnt ≤ d.prod → r < cnt →
      (build_loop L (subfield_shape_of L d) cnt
        (qstate L d (digits_of d t))).getD r (SubfieldRecord.mk [] [] []) =
      frag_record L d (t + r) := by
  intro cnt
  induction cnt with
  | zero => intro t r h hr; omega
  | succ cnt ih =>
    intro t r h hr
    rw [build_loop_succ]
    cases r with
    | zero =>
      rw [List.getD_cons_zero, Nat.add_zero]
      rfl
    | succ r =>
      rw [List.getD_cons_succ]
      rw [odo_advance_digits L d hlen hL hd hd0 t (by omega)]
      rw [show t + (r + 1) = t + 1 + r by omega]
      exact ih (t + 1) r (by omega) (by omega)

/-- The axis-`i` fragment boundary before fragment `k`:
`int(k * (shape_i / divs_i))`, exactly the float corner `create_sub_file`
truncates. -/
def frag_boundary (Li di k : ℕ) : ℤ :=
  pyInt ((k : ℚ) * ((Li : ℚ) / (di : ℚ)))

theorem pyInt_of_nonneg (q : ℚ) (h : 0 ≤ q) : pyInt q = ⌊q⌋ := by
  unfold pyInt
  rw [if_neg (not_lt.mpr h)]

theorem frag_boundary_zero (Li di : ℕ) : frag_boundary Li di 0 = 0 := by
  unfold frag_boundary pyInt
  norm_num

theorem frag_boundary_mono (Li di k k' : ℕ) (h : k ≤ k') :
    frag_boundary Li di k ≤ frag_boundary Li di k' := by
  unfold frag_boundary
  have hs : (0 : ℚ) ≤ (Li : ℚ) / (di : ℚ) := by positivity
  rw [pyInt_of_nonneg _ (by positivity), pyInt_of_nonneg _ (by positivity)]
  apply Int.floor_le_floor
  apply mul_le_mul_of_nonneg_right _ hs
  exact_mod_cast h

theorem frag_boundary_last (Li di : ℕ) (hdi : 1 ≤ di) :
    frag_boundary Li di di = (Li : ℤ) := by
  unfold frag_boundary
  have hdi0 : ((di : ℚ)) ≠ 0 := by positivity
  rw [mul_div_assoc']
  rw [mul_comm, mul_div_assoc, div_self hdi0, mul_one]
  exact pyInt_natCast Li

theorem frag_boundary_le (Li di k : ℕ) (hdi : 1 ≤ di) (hk : k ≤ di) :
    frag_boundary Li di k ≤ (Li : ℤ) := by
  rw [← frag_boundary_last Li di hdi]
  exact frag_boundary_mono Li di k di hk

theorem frag_boundary_strict (Li di k : ℕ) (hdi : 1 ≤ di) (hdL : di ≤ Li) :
    frag_boundary Li di k < frag_boundary Li di (k + 1) := by
  unfold frag_boundary
  have hdi0 : (0 : ℚ) < (di : ℚ) := by exact_mod_cast hdi
  have hs1 : (1 : ℚ) ≤ (Li : ℚ) / (di : ℚ) := by
    rw [one_le_div hdi0]
    exact_mod_cast hdL
  rw [pyInt_of_nonneg _ (by positivity), pyInt_of_nonneg _ (by positivity)]
  have hstep : (k : ℚ) * ((Li : ℚ) / (di : ℚ)) + 1 ≤
      ((k : ℚ) + 1) * ((Li : ℚ) / (di : ℚ)) := by
    nlinarith
  calc ⌊(k : ℚ) * ((Li : ℚ) / (di : ℚ))⌋
      < ⌊(k : ℚ) * ((Li : ℚ) / (di : ℚ))⌋ + 1 := by omega
    _ = ⌊(k : ℚ) * ((Li : ℚ) / (di : ℚ)) + 1⌋ := (Int.floor_add_one _).symm
    _ ≤ ⌊((k : ℚ) + 1) * ((Li : ℚ) / (di : ℚ))⌋ := Int.floor_le_floor hstep
    _ = ⌊((k + 1 : ℕ) : ℚ) * ((Li : ℚ) / (di : ℚ))⌋ := by push_cast; ring_nf

theorem clamp_eq (a Li : ℤ) (h : a ≤ Li) :
    (if Li ≤ a then Li else a) = a := by
  split_ifs with hh
  · omega
  · rfl

theorem build_loop_length (L : List ℕ) (ss : List ℚ) :
    ∀ cnt st, (build_loop L ss cnt st).length = cnt := by
  intro cnt
  induction cnt with
  | zero => intro st; rfl
  | succ cnt ih =>
    intro st
    rw [build_loop_succ]
    simp [ih]

theorem build_list_length (nsf : ℕ) (L : List ℕ) (ss : List ℚ) :
    (build_list_of_indices nsf L ss).length = nsf := by
  unfold build_list_of_indices
  exact build_loop_length L ss nsf _

theorem build_list_getD (L d : List ℕ) (hlen : d.length = L.length)
    (hL : ∀ x ∈ L, 1 ≤ x) (hd : ∀ x ∈ d, 1 ≤ x) (hd0 : 0 < d.length)
    (r : ℕ) (hr : r < d.prod) :
    (build_list_of_indices d.prod L (subfield_shape_of L d)).getD r
      (SubfieldRecord.mk [] [] []) = frag_record L d r := by
  unfold build_list_of_indices
  rw [← qstate_zero L d hlen]
  have h := build_loop_getD L d hlen hL hd hd0 d.prod 0 r (by omega) hr
  rw [Nat.zero_add] at h
  exact h

theorem getD_map_of_lt {α β : Type} (f : α → β) (l : List α) (r : ℕ)
    (hr : r < l.length) (da : α) (db : β) :
    (l.map f).getD r db = f (l.getD r da) := by
  rw [List.getD_eq_getElem _ _ (by simpa using hr), List.getElem_map,
    ← List.getD_eq_getElem l da hr]

theorem getD_le_prod_take (d : List ℕ) (hd : ∀ x ∈ d, 1 ≤ x) (ax : ℕ)
    (hax : ax < d.length) :
    d.getD ax 0 * (d.drop (ax + 1)).prod ≤ d.prod := by
  conv_rhs => rw [← List.take_append_drop (ax + 1) d]
  rw [List.prod_append]
  apply Nat.mul_le_mul_right
  rw [List.take_succ, List.getElem?_eq_getElem hax]
  rw [List.prod_append]
  simp only [Option.toList_some, List.prod_cons, List.prod_nil, mul_one]
  rw [List.getD_eq_getElem _ _ hax]
  calc d[ax] = 1 * d[ax] := (one_mul _).symm
    _ ≤ (d.take ax).prod * d[ax] := by
        apply Nat.mul_le_mul_right
        exact one_le_prod _ (fun x hx => hd x (List.mem_of_mem_take hx))

theorem csfr_getD (L d : List ℕ) (hlen : d.length = L.length)
    (hL : ∀ x ∈ L, 1 ≤ x) (hd : ∀ x ∈ d, 1 ≤ x) (hd0 : 0 < d.length)
    (r ax : ℕ) (hr : r < d.prod) (hax : ax < L.length) :
    ((create_sub_file_ranges L (subfield_shape_of L d)).getD r []).getD ax (0, 0) =
    (frag_boundary (L.getD ax 0) (d.getD ax 0) ((digits_of d r).getD ax 0),
     frag_boundary (L.getD ax 0) (d.getD ax 0) ((digits_of d r).getD ax 0 + 1)) := by
  have haxd : ax < d.length := by omega
  have hk : (digits_of d r).getD ax 0 < d.getD ax 0 := digits_of_lt d hd r ax haxd
  have hdax : 1 ≤ d.getD ax 0 := by
    apply hd
    rw [List.getD_eq_getElem _ _ haxd]
    exact List.getElem_mem haxd
  unfold create_sub_file_ranges
  rw [n_subfiles_eq L d hlen hL]
  rw [getD_map_of_lt _ _ r (by rw [build_list_length]; exact hr)
    (SubfieldRecord.mk [] [] []) []]
  rw [build_list_getD L d hlen hL hd hd0 r hr]
  rw [subfield_shape_of_length]
  rw [getD_map_range _ _ _ _ hax]
  have hstart : (frag_record L d r).starts.getD ax 0 =
      ((digits_of d r).getD ax 0 : ℚ) *
        ((L.getD ax 0 : ℚ) / (d.getD ax 0 : ℚ)) := by
    dsimp only [frag_record, qstate]
    exact getD_map_range _ _ _ _ hax
  have hend : (frag_record L d r).ends.getD ax 0 =
      ((digits_of d r).getD ax 0 : ℚ) *
        ((L.getD ax 0 : ℚ) / (d.getD ax 0 : ℚ)) +
      (L.getD ax 0 : ℚ) / (d.getD ax 0 : ℚ) := by
    dsimp only [frag_record]
    rw [subfield_shape_of_length]
    rw [getD_map_range _ _ _ _ hax]
    rw [subfield_shape_of_getD _ _ _ hax]
    dsimp only [qstate]
    rw [getD_map_range _ _ _ _ hax]
  rw [hstart, hend]
  have harg : ((digits_of d r).getD ax 0 : ℚ) *
        ((L.getD ax 0 : ℚ) / (d.getD ax 0 : ℚ)) +
      (L.getD ax 0 : ℚ) / (d.getD ax 0 : ℚ) =
      (((digits_of d r).getD ax 0 + 1 : ℕ) : ℚ) *
        ((L.getD ax 0 : ℚ) / (d.getD ax 0 : ℚ)) := by
    push_cast
    ring
  rw [harg]
  have hle : pyInt ((((digits_of d r).getD ax 0 + 1 : ℕ) : ℚ) *
      ((L.getD ax 0 : ℚ) / (d.getD ax 0 : ℚ))) ≤ ((L.getD ax 0 : ℕ) : ℤ) :=
    frag_boundary_le (L.getD ax 0) (d.getD ax 0)
      ((digits_of d r).getD ax 0 + 1) hdax hk
  rw [clamp_eq _ _ hle]
  rfl

theorem digits_surjective (d : List ℕ) (hd : ∀ x ∈ d, 1 ≤ x) (ax k : ℕ)
    (hax : ax < d.length) (hk : k < d.getD ax 0) :
    ∃ r, r < d.prod ∧ (digits_of d r).getD ax 0 = k := by
  have hdp : 1 ≤ (d.drop (ax + 1)).prod :=
    one_le_prod _ (fun x hx => hd x (List.mem_of_mem_drop hx))
  refine ⟨k * (d.drop (ax + 1)).prod, ?_, ?_⟩
  · have h1 : (k + 1) * (d.drop (ax + 1)).prod ≤
        d.getD ax 0 * (d.drop (ax + 1)).prod :=
      Nat.mul_le_mul_right _ (by omega)
    have h2 := getD_le_prod_take d hd ax hax
    have h3 : (k + 1) * (d.drop (ax + 1)).prod =
        k * (d.drop (ax + 1)).prod + (d.drop (ax + 1)).prod := by ring
    omega
  · rw [digits_of_getD d hd _ ax hax]
    rw [Nat.mul_div_cancel _ (by omega : 0 < (d.drop (ax + 1)).prod)]
    exact Nat.mod_eq_of_lt hk

/-- C2: for every variable shape `L` split with division counts `d` (one per
dimension, each at least 1 — the splitter starts every count at 1 and only
increments, but a count can exceed its axis length through the all-masked
argmin fallthrough of `subdivide_field`), the `[start, end)` ranges recorded
by `create_sub_file` across all fragments tile every dimension exactly:
there are `prod d` fragments; on each axis the recorded range of fragment
`r` is `[boundary k, boundary (k+1))` where `k < d_ax` is that fragment's
index digit; every `k < d_ax` is realised by some fragment; and the
boundary chain starts at 0, increases monotonically, and ends at the
dimension length — so the sorted ranges cover `[0, dimLength)` with no gap
and no overlap (consecutive boundaries can coincide, giving empty ranges,
only when the division count exceeds the axis length; when `d_ax ≤ L_ax`
the chain is strictly increasing).  The numpy float32 corner arithmetic is
modelled with exact rationals. -/
theorem C2_fragment_locations_tile (L d : List ℕ) (hlen : d.length = L.length)
    (hL : ∀ x ∈ L, 1 ≤ x) (hd : ∀ x ∈ d, 1 ≤ x) (hd0 : 0 < d.length) :
    (create_sub_file_ranges L (subfield_shape_of L d)).length = d.prod ∧
    ∀ ax, ax < L.length →
      (∀ r, r < d.prod →
        ((create_sub_file_ranges L (subfield_shape_of L d)).getD r []).getD
            ax (0, 0) =
          (frag_boundary (L.getD ax 0) (d.getD ax 0) ((digits_of d r).getD ax 0),
           frag_boundary (L.getD ax 0) (d.getD ax 0)
             ((digits_of d r).getD ax 0 + 1)) ∧
        (digits_of d r).getD ax 0 < d.getD ax 0) ∧
      (∀ k, k < d.getD ax 0 → ∃ r, r < d.prod ∧ (digits_of d r).getD ax 0 = k) ∧
      frag_boundary (L.getD ax 0) (d.getD ax 0) 0 = 0 ∧
      frag_boundary (L.getD ax 0) (d.getD ax 0) (d.getD ax 0) = (L.getD ax 0 : ℤ) ∧
      (∀ k k', k ≤ k' →
        frag_boundary (L.getD ax 0) (d.getD ax 0) k ≤
          frag_boundary (L.getD ax 0) (d.getD ax 0) k') ∧
      (d.getD ax 0 ≤ L.getD ax 0 → ∀ k, k < d.getD ax 0 →
        frag_boundary (L.getD ax 0) (d.getD ax 0) k <
          frag_boundary (L.getD ax 0) (d.getD ax 0) (k + 1)) := by
  constructor
  · unfold create_sub_file_ranges
    rw [List.length_map, n_subfiles_eq L d hlen hL, build_list_length]
  · intro ax hax
    have haxd : ax < d.length := by omega
    have hdax : 1 ≤ d.getD ax 0 := by
      apply hd
      rw [List.getD_eq_getElem _ _ haxd]
      exact List.getElem_mem haxd
    refine ⟨fun r hr => ⟨csfr_getD L d hlen hL hd hd0 r ax hr hax,
        digits_of_lt d hd r ax haxd⟩,
      fun k hk => digits_surjective d hd ax k haxd hk,
      frag_boundary_zero _ _,
      frag_boundary_last _ _ hdax,
      fun k k' hkk => frag_boundary_mono _ _ k k' hkk,
      fun hdL k hk => frag_boundary_strict _ _ k hdax hdL⟩

/-- Witness for C2 at shape `[2, 3]` with division counts `[2, 2]`: the
hypotheses hold by computation and the tiling conclusion follows by applying
the theorem. -/
theorem C2_witness :
    (([2, 2] : List ℕ).length = ([2, 3] : List ℕ).length ∧
     (∀ x ∈ ([2, 3] : List ℕ), 1 ≤ x) ∧
     (∀ x ∈ ([2, 2] : List ℕ), 1 ≤ x) ∧
     0 < ([2, 2] : List ℕ).length) ∧
    ((create_sub_file_ranges [2, 3] (subfield_shape_of [2, 3] [2, 2])).length =
        ([2, 2] : List ℕ).prod ∧
     ∀ ax, ax < ([2, 3] : List ℕ).length →
      (∀ r, r < ([2, 2] : List ℕ).prod →
        ((create_sub_file_ranges [2, 3]
            (subfield_shape_of [2, 3] [2, 2])).getD r []).getD ax (0, 0) =
          (frag_boundary (([2, 3] : List ℕ).getD ax 0)
             (([2, 2] : List ℕ).getD ax 0)
             ((digits_of [2, 2] r).getD ax 0),
           frag_boundary (([2, 3] : List ℕ).getD ax 0)
             (([2, 2] : List ℕ).getD ax 0)
             ((digits_of [2, 2] r).getD ax 0 + 1)) ∧
        (digits_of [2, 2] r).getD ax 0 < ([2, 2] : List ℕ).getD ax 0) ∧
      (∀ k, k < ([2, 2] : List ℕ).getD ax 0 →
        ∃ r, r < ([2, 2] : List ℕ).prod ∧ (digits_of [2, 2] r).getD ax 0 = k) ∧
      frag_boundary (([2, 3] : List ℕ).getD ax 0)
        (([2, 2] : List ℕ).getD ax 0) 0 = 0 ∧
      frag_boundary (([2, 3] : List ℕ).getD ax 0)
        (([2, 2] : List ℕ).getD ax 0) (([2, 2] : List ℕ).getD ax 0) =
        ((([2, 3] : List ℕ).getD ax 0 : ℕ) : ℤ) ∧
      (∀ k k', k ≤ k' →
        frag_boundary (([2, 3] : List ℕ).getD ax 0)
          (([2, 2] : List ℕ).getD ax 0) k ≤
        frag_boundary (([2, 3] : List ℕ).getD ax 0)
          (([2, 2] : List ℕ).getD ax 0) k') ∧
      (([2, 2] : List ℕ).getD ax 0 ≤ ([2, 3] : List ℕ).getD ax 0 →
        ∀ k, k < ([2, 2] : List ℕ).getD ax 0 →
        frag_boundary (([2, 3] : List ℕ).getD ax 0)
          (([2, 2] : List ℕ).getD ax 0) k <
        frag_boundary (([2, 3] : List ℕ).getD ax 0)
          (([2, 2] : List ℕ).getD ax 0) (k + 1))) :=
  ⟨⟨by decide, by decide, by decide, by decide⟩,
   C2_fragment_locations_tile [2, 3] [2, 2] (by decide) (by decide) (by decide)
     (by decide)⟩

theorem frag_boundary_nonneg (Li di k : ℕ) : 0 ≤ frag_boundary Li di k := by
  unfold frag_boundary
  rw [pyInt_of_nonneg _ (by positivity)]
  exact Int.le_floor.mpr (by push_cast; positivity)

/-- C6: every `[start, end)` box the splitter computes is clamped to the
array's true extent on each axis: starts are nonnegative, every start is at
most its end, each end is at most the axis length, and the final fragment
on an axis (the one whose index digit is the last, covering the case where
the axis length is not evenly divisible by the fragment size) has its end
set exactly to the axis length — the computation is total, raising no
error.  When the division count does not exceed the axis length every box
is nonempty; a count exceeding the axis length (reachable through the
all-masked argmin fallthrough of `subdivide_field`) yields empty boxes,
still clamped within the extent.  The numpy float32 corner arithmetic is
modelled with exact rationals. -/
theorem C6_boxes_clamped_to_extent (L d : List ℕ) (hlen : d.length = L.length)
    (hL : ∀ x ∈ L, 1 ≤ x) (hd : ∀ x ∈ d, 1 ≤ x) (hd0 : 0 < d.length) :
    ∀ r, r < d.prod → ∀ ax, ax < L.length →
      0 ≤ (((create_sub_file_ranges L
          (subfield_shape_of L d)).getD r []).getD ax (0, 0)).1 ∧
      (((create_sub_file_ranges L
          (subfield_shape_of L d)).getD r []).getD ax (0, 0)).1 ≤
        (((create_sub_file_ranges L
          (subfield_shape_of L d)).getD r []).getD ax (0, 0)).2 ∧
      (((create_sub_file_ranges L
          (subfield_shape_of L d)).getD r []).getD ax (0, 0)).2 ≤
        (L.getD ax 0 : ℤ) ∧
      ((digits_of d r).getD ax 0 + 1 = d.getD ax 0 →
        (((create_sub_file_ranges L
            (subfield_shape_of L d)).getD r []).getD ax (0, 0)).2 =
          (L.getD ax 0 : ℤ)) ∧
      (d.getD ax 0 ≤ L.getD ax 0 →
        (((create_sub_file_ranges L
            (subfield_shape_of L d)).getD r []).getD ax (0, 0)).1 <
          (((create_sub_file_ranges L
            (subfield_shape_of L d)).getD r []).getD ax (0, 0)).2) := by
  intro r hr ax hax
  have haxd : ax < d.length := by omega
  have hdax : 1 ≤ d.getD ax 0 := by
    apply hd
    rw [List.getD_eq_getElem _ _ haxd]
    exact List.getElem_mem haxd
  have hk : (digits_of d r).getD ax 0 < d.getD ax 0 := digits_of_lt d hd r ax haxd
  rw [csfr_getD L d hlen hL hd hd0 r ax hr hax]
  refine ⟨frag_boundary_nonneg _ _ _,
    frag_boundary_mono _ _ _ _ (by omega),
    frag_boundary_le _ _ _ hdax hk, fun hfin => ?_,
    fun hdL => frag_boundary_strict _ _ _ hdax hdL⟩
  rw [hfin]
  exact frag_boundary_last _ _ hdax

/-- Witness for C6 at shape `[2, 3]` with division counts `[2, 2]`: the
hypotheses hold by computation and the clamping conclusion follows by
applying the theorem. -/
theorem C6_witness :
    (([2, 2] : List ℕ).length = ([2, 3] : List ℕ).length ∧
     (∀ x ∈ ([2, 3] : List ℕ), 1 ≤ x) ∧
     (∀ x ∈ ([2, 2] : List ℕ), 1 ≤ x) ∧
     0 < ([2, 2] : List ℕ).length) ∧
    (∀ r, r < ([2, 2] : List ℕ).prod → ∀ ax, ax < ([2, 3] : List ℕ).length →
      0 ≤ (((create_sub_file_ranges [2, 3]
          (subfield_shape_of [2, 3] [2, 2])).getD r []).getD ax (0, 0)).1 ∧
      (((create_sub_file_ranges [2, 3]
          (subfield_shape_of [2, 3] [2, 2])).getD r []).getD ax (0, 0)).1 ≤
        (((create_sub_file_ranges [2, 3]
          (subfield_shape_of [2, 3] [2, 2])).getD r []).getD ax (0, 0)).2 ∧
      (((create_sub_file_ranges [2, 3]
          (subfield_shape_of [2, 3] [2, 2])).getD r []).getD ax (0, 0)).2 ≤
        ((([2, 3] : List ℕ).getD ax 0 : ℕ) : ℤ) ∧
      ((digits_of [2, 2] r).getD ax 0 + 1 = ([2, 2] : List ℕ).getD ax 0 →
        (((create_sub_file_ranges [2, 3]
            (subfield_shape_of [2, 3] [2, 2])).getD r []).getD ax (0, 0)).2 =
          ((([2, 3] : List ℕ).getD ax 0 : ℕ) : ℤ)) ∧
      (([2, 2] : List ℕ).getD ax 0 ≤ ([2, 3] : List ℕ).getD ax 0 →
        (((create_sub_file_ranges [2, 3]
            (subfield_shape_of [2, 3] [2, 2])).getD r []).getD ax (0, 0)).1 <
          (((create_sub_file_ranges [2, 3]
            (subfield_shape_of [2, 3] [2, 2])).getD r []).getD ax (0, 0)).2)) :=
  ⟨⟨by decide, by decide, by decide, by decide⟩,
   C6_boxes_clamped_to_extent [2, 3] [2, 2] (by decide) (by decide) (by decide)
     (by decide)⟩

/-- Python slice read `X[ss:es]` on a 1-D array. -/
def extract (X : List ℚ) (ss es : ℕ) : List ℚ := (X.drop ss).take (es - ss)

/-- Python slice write `out[ss:ss+len(vals)] = vals` on a 1-D array. -/
def write_box (out : List ℚ) (ss : ℕ) (vals : List ℚ) : List ℚ :=
  out.take ss ++ vals ++ out.drop (ss + vals.length)

/-- The partition-by-partition copy of `copy_vars` (utils/split.py): write
each fragment's data into the output at the fragment's recorded location. -/
def reassemble : List ℚ → List (ℕ × List ℚ) → List ℚ
  | out, [] => out
  | out, (ss, vals) :: rest => reassemble (write_box out ss vals) rest

/-- The 1-D fragments the splitter records: fragment `k` carries the slice of
`X` between the recorded boundaries `int(k*(L/dv))` and `int((k+1)*(L/dv))`,
at that start offset (the boxes of `create_sub_file_ranges`, by
`csfr_getD`). -/
def split_frags (X : List ℚ) (L dv : ℕ) : List (ℕ × List ℚ) :=
  (List.range dv).map (fun k =>
    ((frag_boundary L dv k).toNat,
     extract X ((frag_boundary L dv k).toNat) ((frag_boundary L dv (k + 1)).toNat)))

theorem write_box_step (X X0 : List ℚ) (a b : ℕ) (hab : a ≤ b)
    (hbX : b ≤ X.length) (hlen : X0.length = X.length) :
    write_box (X.take a ++ X0.drop a) a (extract X a b) =
    X.take b ++ X0.drop b := by
  unfold write_box extract
  have hta : (X.take a).length = a := by
    rw [List.length_take]
    omega
  have hvl : ((X.drop a).take (b - a)).length = b - a := by
    rw [List.length_take, List.length_drop]
    omega
  rw [hvl, show a + (b - a) = b by omega]
  rw [List.take_append_of_le_length (by omega : a ≤ (X.take a).length)]
  rw [List.take_take, min_self]
  rw [List.drop_append_eq_append_drop]
  rw [List.drop_eq_nil_of_le (by omega : (X.take a).length ≤ b)]
  rw [List.nil_append, hta, List.drop_drop]
  rw [show a + (b - a) = b by omega]
  congr 1
  conv_rhs => rw [show b = a + (b - a) from by omega]
  rw [List.take_add]

theorem frag_boundary_toNat_mono (L dv k k' : ℕ) (h : k ≤ k') :
    (frag_boundary L dv k).toNat ≤ (frag_boundary L dv k').toNat :=
  Int.toNat_le_toNat (frag_boundary_mono L dv k k' h)

theorem frag_boundary_toNat_last (L dv : ℕ) (hdv : 1 ≤ dv) :
    (frag_boundary L dv dv).toNat = L := by
  rw [frag_boundary_last L dv hdv]
  exact Int.toNat_natCast L

theorem frag_boundary_toNat_le (L dv k : ℕ) (hdv : 1 ≤ dv) (hk : k ≤ dv) :
    (frag_boundary L dv k).toNat ≤ L :=
  le_trans (frag_boundary_toNat_mono L dv k dv hk)
    (le_of_eq (frag_boundary_toNat_last L dv hdv))

theorem reassemble_from (X X0 : List ℚ) (L dv : ℕ) (hX : X.length = L)
    (hX0 : X0.length = L) (hdv : 1 ≤ dv) :
    ∀ cnt m, m + cnt = dv →
      reassemble
        (X.take ((frag_boundary L dv m).toNat) ++
          X0.drop ((frag_boundary L dv m).toNat))
        ((List.range' m cnt).map (fun k =>
          ((frag_boundary L dv k).toNat,
           extract X ((frag_boundary L dv k).toNat)
             ((frag_boundary L dv (k + 1)).toNat)))) = X := by
  intro cnt
  induction cnt with
  | zero =>
    intro m hm
    have hmd : m = dv := by omega
    rw [hmd]
    show X.take ((frag_boundary L dv dv).toNat) ++
        X0.drop ((frag_boundary L dv dv).toNat) = X
    rw [frag_boundary_toNat_last L dv hdv]
    rw [← hX, List.take_length, List.drop_eq_nil_of_le (by omega), List.append_nil]
  | succ cnt ih =>
    intro m hm
    rw [List.range'_succ, List.map_cons]
    show reassemble
        (write_box
          (X.take ((frag_boundary L dv m).toNat) ++
            X0.drop ((frag_boundary L dv m).toNat))
          ((frag_boundary L dv m).toNat)
          (extract X ((frag_boundary L dv m).toNat)
            ((frag_boundary L dv (m + 1)).toNat))) _ = X
    rw [write_box_step X X0 _ _
      (frag_boundary_toNat_mono L dv m (m + 1) (by omega))
      (by rw [hX]; exact frag_boundary_toNat_le L dv (m + 1) hdv (by omega))
      (by omega)]
    exact ih (m + 1) (by omega)

/-- Number of values of fragment `k` along the split axis: the recorded box
extent `es - ss`. -/
def frag_count (L dv k : ℕ) : ℕ :=
  (frag_boundary L dv (k + 1)).toNat - (frag_boundary L dv k).toNat

/-- The axis coordinate values stored in fragment file `k` when the source
axis coordinate is the identity with unit resolution: the indices covered by
the fragment's box, as floats. -/
def frag_values (L dv k : ℕ) : List ℚ :=
  (List.range (frag_count L dv k)).map
    (fun i => (((frag_boundary L dv k).toNat + i : ℕ) : ℚ))

/-- The partition the aggregator (`add_var_dims`) builds for fragment file
`k` of a split: location start `int(first/res)` with the inferred resolution
`res = (last-first)/count`, end `start + count`, and the fragment's extent
as its shape. -/
def split_agg_partition (L dv k : ℕ) : AggPartition :=
  { index := k,
    location := (agg_axis_start (frag_values L dv k),
      agg_axis_start (frag_values L dv k) + (frag_count L dv k : ℤ)),
    shape := frag_count L dv k }

/-- Aggregating the fragment files of a 1-D split along the split axis:
build each fragment's partition with `add_var_dims` and pass the matrix
through `sort_partition_matrix`. -/
def split_agg_matrix (L dv : ℕ) : List AggPartition :=
  sort_partition_matrix ((List.range dv).map (split_agg_partition L dv))

theorem headD_eq_getD {α : Type} (l : List α) (d : α) : l.headD d = l.getD 0 d := by
  cases l <;> rfl

theorem getLastD_eq_getD {α : Type} (l : List α) (d : α) (h : l ≠ []) :
    l.getLastD d = l.getD (l.length - 1) d := by
  have hl : l.length - 1 < l.length := by
    have := List.length_pos.mpr h
    omega
  rw [List.getLastD_eq_getLast?, List.getLast?_eq_getElem?,
    List.getElem?_eq_getElem hl, Option.getD_some, List.getD_eq_getElem _ _ hl]

theorem frag_values_length (L dv k : ℕ) :
    (frag_values L dv k).length = frag_count L dv k := by
  simp [frag_values]

theorem frag_values_ne_nil (L dv k : ℕ) (hc : 1 ≤ frag_count L dv k) :
    frag_values L dv k ≠ [] := by
  intro h
  have := frag_values_length L dv k
  rw [h] at this
  simp at this
  omega

theorem frag_values_headD (L dv k : ℕ) (hc : 1 ≤ frag_count L dv k) :
    (frag_values L dv k).headD 0 = ((frag_boundary L dv k).toNat : ℚ) := by
  rw [headD_eq_getD]
  unfold frag_values
  rw [getD_map_range _ _ _ _ (by omega)]
  norm_num

theorem frag_values_getLastD (L dv k : ℕ) (hc : 1 ≤ frag_count L dv k) :
    (frag_values L dv k).getLastD 0 =
    (((frag_boundary L dv k).toNat + (frag_count L dv k - 1) : ℕ) : ℚ) := by
  rw [getLastD_eq_getD _ _ (frag_values_ne_nil L dv k hc), frag_values_length]
  unfold frag_values
  rw [getD_map_range _ _ _ _ (by omega)]

theorem frag_values_res (L dv k : ℕ) (hc : 1 ≤ frag_count L dv k) :
    agg_axis_res (frag_values L dv k) =
    ((frag_count L dv k : ℚ) - 1) / (frag_count L dv k : ℚ) := by
  unfold agg_axis_res
  rw [frag_values_headD L dv k hc, frag_values_getLastD L dv k hc,
    frag_values_length]
  congr 1
  push_cast [Nat.cast_sub hc]
  ring

theorem add_var_dims_split_fragment (L dv k : ℕ) (hc : 2 ≤ frag_count L dv k) :
    add_var_dims_location ("time") (frag_values L dv k)
      [frag_count L dv k] 0 true =
    Except.ok [(split_agg_partition L dv k).location] := by
  have hc1 : 1 ≤ frag_count L dv k := by omega
  have hres : agg_axis_res (frag_values L dv k) ≠ 0 := by
    rw [frag_values_res L dv k hc1]
    have hc0 : (0 : ℚ) < (frag_count L dv k : ℚ) := by
      exact_mod_cast hc1
    have hc2 : (1 : ℚ) < (frag_count L dv k : ℚ) := by
      exact_mod_cast hc
    exact div_ne_zero (by linarith) (by linarith)
  unfold add_var_dims_location
  rw [if_pos rfl, if_neg (not_not_intro (Or.inl rfl)),
    if_neg (frag_values_ne_nil L dv k hc1), if_neg hres]
  congr 1
  show [if 0 = 0 then
      (agg_axis_start (frag_values L dv k),
       agg_axis_start (frag_values L dv k) +
         ((frag_values L dv k).length : ℤ))
    else (0, (([frag_count L dv k] : List ℕ).getD 0 0 : ℤ))] = _
  rw [if_pos rfl, frag_values_length]
  rfl

theorem frag_boundary_exact (dv c k : ℕ) (hdv : 1 ≤ dv) :
    frag_boundary (dv * c) dv k = ((k * c : ℕ) : ℤ) := by
  unfold frag_boundary
  have hdv0 : ((dv : ℚ)) ≠ 0 := by positivity
  have harg : ((k : ℚ)) * (((dv * c : ℕ) : ℚ) / (dv : ℚ)) =
      (((k * c : ℕ)) : ℚ) := by
    push_cast
    rw [mul_comm ((dv : ℚ)) ((c : ℚ)), mul_div_assoc, div_self hdv0, mul_one]
  rw [harg, pyInt_natCast]

theorem frag_count_exact (dv c k : ℕ) (hdv : 1 ≤ dv) :
    frag_count (dv * c) dv k = c := by
  unfold frag_count
  rw [frag_boundary_exact dv c k hdv, frag_boundary_exact dv c (k + 1) hdv,
    Int.toNat_natCast, Int.toNat_natCast, Nat.succ_mul]
  omega

theorem agg_start_exact (dv c k : ℕ) (hdv : 1 ≤ dv) (hc : 2 ≤ c) :
    agg_axis_start (frag_values (dv * c) dv k) =
    pyInt (((k * c : ℕ) : ℚ) * ((c : ℚ) / ((c : ℚ) - 1))) := by
  have hcnt : 1 ≤ frag_count (dv * c) dv k := by
    rw [frag_count_exact dv c k hdv]
    omega
  unfold agg_axis_start
  rw [frag_values_headD _ _ _ hcnt, frag_values_res _ _ _ hcnt,
    frag_count_exact dv c k hdv, frag_boundary_exact dv c k hdv,
    Int.toNat_natCast]
  congr 1
  rw [div_div_eq_mul_div, mul_div_assoc]

theorem agg_start_exact_mono (dv c k k' : ℕ) (hdv : 1 ≤ dv) (hc : 2 ≤ c)
    (h : k ≤ k') :
    agg_axis_start (frag_values (dv * c) dv k) ≤
    agg_axis_start (frag_values (dv * c) dv k') := by
  rw [agg_start_exact dv c k hdv hc, agg_start_exact dv c k' hdv hc]
  have hc1 : (1 : ℚ) < (c : ℚ) := by exact_mod_cast hc
  have hpos : (0 : ℚ) ≤ (c : ℚ) / ((c : ℚ) - 1) :=
    div_nonneg (by positivity) (by linarith)
  rw [pyInt_of_nonneg _ (mul_nonneg (by positivity) hpos),
    pyInt_of_nonneg _ (mul_nonneg (by positivity) hpos)]
  apply Int.floor_le_floor
  apply mul_le_mul_of_nonneg_right _ hpos
  exact_mod_cast Nat.mul_le_mul_right c h

theorem agg_start_exact_zero (dv c : ℕ) (hdv : 1 ≤ dv) (hc : 2 ≤ c) :
    agg_axis_start (frag_values (dv * c) dv 0) = 0 := by
  rw [agg_start_exact dv c 0 hdv hc]
  norm_num [pyInt]

theorem split_agg_parts_sorted (dv c : ℕ) (hdv : 1 ≤ dv) (hc : 2 ≤ c) :
    List.Sorted agg_part_le
      ((List.range dv).map (split_agg_partition (dv * c) dv)) := by
  rw [List.Sorted, List.pairwise_iff_getElem]
  intro i j hi hj hij
  simp only [List.length_map, List.length_range] at hi hj
  simp only [List.getElem_map, List.getElem_range]
  show (split_agg_partition (dv * c) dv i).location.1 ≤
    (split_agg_partition (dv * c) dv j).location.1
  unfold split_agg_partition
  exact agg_start_exact_mono dv c i j hdv hc (by omega)

theorem reindex_split_agg (L dv : ℕ) :
    reindex_from 0 ((List.range dv).map (split_agg_partition L dv)) =
    (List.range dv).map (split_agg_partition L dv) := by
  apply List.ext_getElem
  · rw [reindex_from_length]
  · intro j h1 h2
    have hj : j < dv := by
      simpa using h2
    rw [← List.getD_eq_getElem _ default h1, ← List.getD_eq_getElem _ default h2]
    rw [reindex_from_getD _ 0 j (by simpa using hj)]
    rw [getD_map_range _ _ _ _ hj]
    show { split_agg_partition L dv j with index := 0 + j } =
      split_agg_partition L dv j
    rw [Nat.zero_add]
    rfl

theorem take_map_shape_sum (dv c j : ℕ) (hdv : 1 ≤ dv) (hj : j ≤ dv) :
    ((((List.range dv).map (split_agg_partition (dv * c) dv)).take j).map
      (fun p => (p.shape : ℤ))).sum = ((j * c : ℕ) : ℤ) := by
  rw [← List.map_take, List.take_range, min_eq_left hj, List.map_map]
  have hcongr : (List.range j).map
      ((fun p => (p.shape : ℤ)) ∘ split_agg_partition (dv * c) dv) =
      (List.range j).map (fun i => ((c : ℕ) : ℤ)) := by
    apply map_range_congr
    intro i hi
    show (((split_agg_partition (dv * c) dv i).shape : ℕ) : ℤ) = ((c : ℕ) : ℤ)
    unfold split_agg_partition
    rw [frag_count_exact dv c i hdv]
  rw [hcongr, List.map_const', List.length_range, List.sum_replicate,
    nsmul_eq_mul]
  push_cast
  ring

theorem split_agg_exact (dv c : ℕ) (hdv : 1 ≤ dv) (hc : 2 ≤ c) :
    split_agg_matrix (dv * c) dv =
    (List.range dv).map (fun k =>
      { index := k,
        location := (((k * c : ℕ) : ℤ), ((((k + 1) * c : ℕ)) : ℤ)),
        shape := c }) := by
  have hsort : sort_by_location_start
      ((List.range dv).map (split_agg_partition (dv * c) dv)) =
      (List.range dv).map (split_agg_partition (dv * c) dv) :=
    List.Sorted.insertionSort_eq (split_agg_parts_sorted dv c hdv hc)
  have hne : (List.range dv).map (split_agg_partition (dv * c) dv) ≠ [] := by
    intro h
    have hh := congrArg List.length h
    simp at hh
    omega
  have hplen : ((List.range dv).map (split_agg_partition (dv * c) dv)).length
      = dv := by simp
  apply List.ext_getElem
  · rw [split_agg_matrix, sort_partition_matrix_length]
    simp
  · intro j h1 h2
    have hjdv : j < dv := by simpa using h2
    rw [← List.getD_eq_getElem _ default h1, ← List.getD_eq_getElem _ default h2]
    show (split_agg_matrix (dv * c) dv).getD j default = _
    rw [split_agg_matrix]
    rw [sort_partition_matrix_getD _ hne j (by rw [hplen]; exact hjdv)]
    rw [hsort, reindex_split_agg]
    rw [getD_map_range _ _ _ _ hjdv]
    rw [getD_map_range _ _ _ _ (by omega : 0 < dv)]
    rw [take_map_shape_sum dv c j hdv (by omega)]
    rw [take_map_shape_sum dv c (j + 1) hdv (by omega)]
    rw [getD_map_range _ _ _ _ hjdv]
    simp only [split_agg_partition]
    rw [agg_start_exact_zero dv c hdv hc, frag_count_exact dv c j hdv,
      zero_add, zero_add]

/-- C7 counterexample: splitting a 12-element axis into 5 fragments records
the boxes `[0,2) [2,4) [4,7) [7,9) [9,12)`, but aggregating those fragment
files (axis coordinates = indices, resolution 1) infers per-fragment
resolutions `(last-first)/count` of `1/2` or `2/3` instead of 1, giving sort
keys `0, 4, 6, 14, 13`: fragments 3 and 4 are misordered, and the stitched
partition matrix tiles `[0,2) [2,4) [4,7) [7,10) [10,12)` — not the split's
tiling, so split→aggregate is not idempotent. Each fragment's partition is
exactly what `add_var_dims` computes. -/
theorem C7_counterexample :
    split_agg_matrix 12 5 =
      [{ index := 0, location := (0, 2), shape := 2 },
       { index := 1, location := (2, 4), shape := 2 },
       { index := 2, location := (4, 7), shape := 3 },
       { index := 3, location := (7, 10), shape := 3 },
       { index := 4, location := (10, 12), shape := 2 }] ∧
    (List.range 5).map (fun k =>
        (frag_boundary 12 5 k, frag_boundary 12 5 (k + 1))) =
      [(0, 2), (2, 4), (4, 7), (7, 9), (9, 12)] ∧
    (split_agg_matrix 12 5).map AggPartition.location ≠
      (List.range 5).map (fun k =>
        (frag_boundary 12 5 k, frag_boundary 12 5 (k + 1))) ∧
    (∀ k, k < 5 →
      add_var_dims_location ("time") (frag_values 12 5 k)
        [frag_count 12 5 k] 0 true =
      Except.ok [(split_agg_partition 12 5 k).location]) := by
  have hb : frag_boundary 12 5 0 = 0 ∧ frag_boundary 12 5 1 = 2 ∧
      frag_boundary 12 5 2 = 4 ∧ frag_boundary 12 5 3 = 7 ∧
      frag_boundary 12 5 4 = 9 ∧ frag_boundary 12 5 5 = 12 := by
    refine ⟨?_, ?_, ?_, ?_, ?_, ?_⟩ <;> (unfold frag_boundary pyInt; norm_num)
  have hc0 : frag_count 12 5 0 = 2 := by
    unfold frag_count
    rw [hb.2.1, hb.1]
    rfl
  have hc1 : frag_count 12 5 1 = 2 := by
    unfold frag_count
    rw [hb.2.2.1, hb.2.1]
    rfl
  have hc2 : frag_count 12 5 2 = 3 := by
    unfold frag_count
    rw [hb.2.2.2.1, hb.2.2.1]
    rfl
  have hc3 : frag_count 12 5 3 = 2 := by
    unfold frag_count
    rw [hb.2.2.2.2.1, hb.2.2.2.1]
    rfl
  have hc4 : frag_count 12 5 4 = 3 := by
    unfold frag_count
    rw [hb.2.2.2.2.2, hb.2.2.2.2.1]
    rfl
  have hv0 : frag_values 12 5 0 = [0, 1] := by
    unfold frag_values
    rw [hc0, hb.1]
    norm_num [List.range_succ]
  have hv1 : frag_values 12 5 1 = [2, 3] := by
    unfold frag_values
    rw [hc1, hb.2.1, show ((2 : ℤ).toNat) = 2 from rfl]
    norm_num [List.range_succ]
  have hv2 : frag_values 12 5 2 = [4, 5, 6] := by
    unfold frag_values
    rw [hc2, hb.2.2.1, show ((4 : ℤ).toNat) = 4 from rfl]
    norm_num [List.range_succ]
  have hv3 : frag_values 12 5 3 = [7, 8] := by
    unfold frag_values
    rw [hc3, hb.2.2.2.1, show ((7 : ℤ).toNat) = 7 from rfl]
    norm_num [List.range_succ]
  have hv4 : frag_values 12 5 4 = [9, 10, 11] := by
    unfold frag_values
    rw [hc4, hb.2.2.2.2.1, show ((9 : ℤ).toNat) = 9 from rfl]
    norm_num [List.range_succ]
  have hs0 : agg_axis_start (frag_values 12 5 0) = 0 := by
    rw [hv0]
    unfold agg_axis_start agg_axis_res pyInt
    norm_num [List.getLastD, List.headD]
  have hs1 : agg_axis_start (frag_values 12 5 1) = 4 := by
    rw [hv1]
    unfold agg_axis_start agg_axis_res pyInt
    norm_num [List.getLastD, List.headD]
  have hs2 : agg_axis_start (frag_values 12 5 2) = 6 := by
    rw [hv2]
    unfold agg_axis_start agg_axis_res pyInt
    norm_num [List.getLastD, List.headD]
  have hs3 : agg_axis_start (frag_values 12 5 3) = 14 := by
    rw [hv3]
    unfold agg_axis_start agg_axis_res pyInt
    norm_num [List.getLastD, List.headD]
  have hs4 : agg_axis_start (frag_values 12 5 4) = 13 := by
    rw [hv4]
    unfold agg_axis_start agg_axis_res pyInt
    norm_num [List.getLastD, List.headD]
  have hparts : (List.range 5).map (split_agg_partition 12 5) =
      [{ index := 0, location := (0, 2), shape := 2 },
       { index := 1, location := (4, 6), shape := 2 },
       { index := 2, location := (6, 9), shape := 3 },
       { index := 3, location := (14, 16), shape := 2 },
       { index := 4, location := (13, 16), shape := 3 }] := by
    simp only [List.range_succ, List.range_zero, List.map_append, List.map_cons,
      List.map_nil, List.nil_append, List.cons_append, List.append_nil]
    unfold split_agg_partition
    rw [hs0, hs1, hs2, hs3, hs4, hc0, hc1, hc2, hc3, hc4]
    norm_num
  have hmatrix : split_agg_matrix 12 5 =
      [{ index := 0, location := (0, 2), shape := 2 },
       { index := 1, location := (2, 4), shape := 2 },
       { index := 2, location := (4, 7), shape := 3 },
       { index := 3, location := (7, 10), shape := 3 },
       { index := 4, location := (10, 12), shape := 2 }] := by
    unfold split_agg_matrix
    rw [hparts]
    decide
  have hboxes : (List.range 5).map (fun k =>
      (frag_boundary 12 5 k, frag_boundary 12 5 (k + 1))) =
      [(0, 2), (2, 4), (4, 7), (7, 9), (9, 12)] := by
    simp only [List.range_succ, List.range_zero, List.map_append, List.map_cons,
      List.map_nil, List.nil_append, List.cons_append, List.append_nil]
    rw [hb.1, hb.2.1, hb.2.2.1, hb.2.2.2.1, hb.2.2.2.2.1, hb.2.2.2.2.2]
  refine ⟨hmatrix, hboxes, ?_, ?_⟩
  · rw [hmatrix, hboxes]
    decide
  · intro k hk
    interval_cases k
    · exact add_var_dims_split_fragment 12 5 0 (by rw [hc0])
    · exact add_var_dims_split_fragment 12 5 1 (by rw [hc1])
    · exact add_var_dims_split_fragment 12 5 2 (by rw [hc2]; omega)
    · exact add_var_dims_split_fragment 12 5 3 (by rw [hc3])
    · exact add_var_dims_split_fragment 12 5 4 (by rw [hc4]; omega)

/-- C7 (amended): (a) the round trip holds — splitting a 1-D array into the
recorded fragment boxes and writing every fragment back at its recorded
location (`copy_vars`) reproduces the source array exactly, for any number
of fragments; (b) split→aggregate idempotence holds for exact splits: when
the axis length is `dv * c` with equal fragment extents `c ≥ 2`, the
fragment boundaries are `k*c`, each fragment's partition is exactly what
`add_var_dims` computes, and aggregating reproduces the split's partition
matrix (index `k`, location `[k*c, (k+1)*c)`, shape `c`).  (For unequal
extents the aggregator's inferred resolution distorts the sort keys and
idempotence fails: see the counterexample.) -/
theorem C7_round_trip_and_exact_idempotence :
    (∀ (X X0 : List ℚ) (L dv : ℕ), X.length = L → X0.length = L → 1 ≤ dv →
      reassemble X0 (split_frags X L dv) = X) ∧
    (∀ dv c : ℕ, 1 ≤ dv → 2 ≤ c →
      (∀ k, frag_boundary (dv * c) dv k = ((k * c : ℕ) : ℤ)) ∧
      (∀ k, add_var_dims_location ("time") (frag_values (dv * c) dv k)
          [frag_count (dv * c) dv k] 0 true =
        Except.ok [(split_agg_partition (dv * c) dv k).location]) ∧
      split_agg_matrix (dv * c) dv =
        (List.range dv).map (fun k =>
          { index := k,
            location := (((k * c : ℕ) : ℤ), (((k + 1) * c : ℕ) : ℤ)),
            shape := c })) := by
  constructor
  · intro X X0 L dv hX hX0 hdv
    have h := reassemble_from X X0 L dv hX hX0 hdv dv 0 (by omega)
    rw [frag_boundary_zero] at h
    simp only [Int.toNat_zero, List.take_zero, List.drop_zero,
      List.nil_append] at h
    unfold split_frags
    rw [List.range_eq_range']
    exact h
  · intro dv c hdv hc
    refine ⟨fun k => frag_boundary_exact dv c k hdv,
      fun k => add_var_dims_split_fragment (dv * c) dv k
        (by rw [frag_count_exact dv c k hdv]; omega),
      split_agg_exact dv c hdv hc⟩

/-- Witness for C7: reassembling the two fragments of a 3-element array
reproduces it, and the exact split of a 4-element axis into 2 fragments of
2 aggregates back to itself. -/
theorem C7_witness :
    (([5, 7, 11] : List ℚ).length = 3 ∧ ([0, 0, 0] : List ℚ).length = 3 ∧
      (1 : ℕ) ≤ 2 ∧ (2 : ℕ) ≤ 2) ∧
    reassemble [0, 0, 0] (split_frags [5, 7, 11] 3 2) = [5, 7, 11] ∧
    split_agg_matrix (2 * 2) 2 =
      (List.range 2).map (fun k =>
        { index := k,
          location := (((k * 2 : ℕ) : ℤ), (((k + 1) * 2 : ℕ) : ℤ)),
          shape := 2 }) :=
  ⟨⟨by decide, by decide, by decide, by decide⟩,
   C7_round_trip_and_exact_idempotence.1 [5, 7, 11] [0, 0, 0] 3 2
     (by decide) (by decide) (by decide),
   (C7_round_trip_and_exact_idempotence.2 2 2 (by decide) (by decide)).2.2⟩
